import Mathlib

/-!
Verification of the KPK archive engine (kpk_tool.py, kpk_repack.py).

Files on disk are modelled as lists of natural numbers (`List Nat`), one
element per byte; real archive bytes are `< 256` (the predicate `Bytes`).
Entry names are kept as their UTF-8 byte sequences: Python compares and
sorts names as strings, and because UTF-8 is a prefix code that preserves
code-point order, `startswith`, `endswith` and lexicographic sorting on
the byte lists agree with the string operations of the source.

The LZ4 library is external to the repository, so the compressor and the
decompressor are parameters (`C`, `D`) of every definition that uses them;
the round-trip property of LZ4 is taken as a hypothesis where a claim
needs it.  `zlib.crc32` is implemented bit-for-bit below.

Recursive loops whose Python originals iterate over file positions are
written with an explicit fuel argument (always instantiated with a
provably sufficient amount) so that every definition is a structural
recursion the kernel can evaluate on concrete inputs.
-/

namespace KPK

/-- Predicate asserting that a list models a real byte string: every element fits in a byte. -/
def Bytes (l : List Nat) : Prop := ∀ b ∈ l, b < 256

/-- Bytes of the 13-byte signature: KinoArchive, version 0x01, reserved 0x00
(kpk_repack.py line 20, kpk_tool.py line 26). -/
def SIG : List Nat := [75, 105, 110, 111, 65, 114, 99, 104, 105, 118, 101, 1, 0]

/-- Fixed part of an entry header, 23 bytes (kpk_repack.py line 22). -/
def HDR_LEN : Nat := 23

/-- Chunk size for the in-place block copy, 8 MiB (kpk_repack.py line 23). -/
def CHUNK_SIZE : Nat := 8 * 1024 * 1024

/-- Model of seeking to position pos and reading n bytes; a read near the end of
the file returns fewer than n bytes, exactly like Python's file read. -/
def readAt (f : List Nat) (pos n : Nat) : List Nat := (f.drop pos).take n

/-- Model of seeking to position pos and writing the bytes d in place.  Writing past
the end extends the file; a seek beyond the end zero-fills the gap, as POSIX does. -/
def writeAt (f : List Nat) (pos : Nat) (d : List Nat) : List Nat :=
  f.take pos ++ List.replicate (pos - f.length) 0 ++ d ++ f.drop (pos + d.length)

/-- Little-endian serialization of a value into k bytes, as struct.pack with formats
B, H, I, Q does for k = 1, 2, 4, 8 (values in range). -/
def leBytes : Nat → Nat → List Nat
  | 0, _ => []
  | k + 1, n => n % 256 :: leBytes k (n / 256)

/-- Little-endian value of a byte list, as struct.unpack reads fields. -/
def leVal : List Nat → Nat
  | [] => 0
  | b :: bs => b + 256 * leVal bs

/-- One shift-xor round of the reflected CRC-32 polynomial 0xEDB88320. -/
def crc32Round (c : Nat) : Nat := if c % 2 = 1 then (c / 2) ^^^ 0xEDB88320 else c / 2

/-- Folding one data byte into the CRC-32 state: xor it in, then eight rounds. -/
def crc32Byte (c b : Nat) : Nat :=
  crc32Round (crc32Round (crc32Round (crc32Round
    (crc32Round (crc32Round (crc32Round (crc32Round (c ^^^ b))))))))

/-- Model of zlib.crc32 over a byte list (already reduced modulo 2^32). -/
def crc32 (data : List Nat) : Nat := (data.foldl crc32Byte 0xFFFFFFFF) ^^^ 0xFFFFFFFF

/-- Strict lexicographic comparison of byte lists, mirroring Python's comparison
of the corresponding strings. -/
def lexLt : List Nat → List Nat → Bool
  | _, [] => false
  | [], _ :: _ => true
  | a :: as, b :: bs => if a < b then true else if b < a then false else lexLt as bs

/-- Ordering of (name, payload) pairs by name, used to model Python's sorted on
the items of the local-file dictionary (names are distinct dict keys, so the
payload component never takes part in a real comparison). -/
def nameLe (a b : List Nat × List Nat) : Prop := lexLt b.1 a.1 = false

instance : DecidableRel nameLe :=
  fun a b => inferInstanceAs (Decidable (lexLt b.1 a.1 = false))

/-- Model of sorted(local_files.items()) / files.sort(): a stable ascending sort
by name (kpk_repack.py line 252, kpk_tool.py line 60). -/
def sortPairs (l : List (List Nat × List Nat)) : List (List Nat × List Nat) :=
  List.insertionSort nameLe l

/-- Index record produced by build_index: name, starting offset, and
total record length HDR_LEN + name_len + comp_size (kpk_repack.py lines 57-61). -/
structure IndexEntry where
  name : List Nat
  offset : Nat
  total_size : Nat
deriving DecidableEq

/-- Scanning loop of build_index (kpk_repack.py lines 45-62): at each position read
the 23-byte header, stop if it is short; read the name, stop if it is short;
otherwise record the entry and skip comp_size body bytes.  The fuel argument only
bounds the recursion depth; build_index always passes enough.  Names are kept as
their raw bytes, so the UnicodeDecodeError the source raises on an invalid-UTF-8
name (line 55) is outside this model. -/
def buildIndexLoop (file : List Nat) : Nat → Nat → List IndexEntry
  | 0, _ => []
  | fuel + 1, pos =>
    let hdr := readAt file pos 23
    if hdr.length < 23 then []
    else
      let nl := leVal (hdr.take 2)
      let cs := leVal ((hdr.drop 2).take 8)
      let nameBytes := readAt file (pos + 23) nl
      if nameBytes.length < nl then []
      else ⟨nameBytes, pos, 23 + nl + cs⟩ :: buildIndexLoop file fuel (pos + (23 + nl + cs))

/-- Model of build_index (kpk_repack.py lines 35-62): check the 13-byte signature
(none models the ValueError raised on a mismatch), then scan entries from offset
13; the name-decode failure of the source is not modelled, see buildIndexLoop. -/
def build_index (file : List Nat) : Option (List IndexEntry) :=
  if readAt file 0 13 = SIG then some (buildIndexLoop file (file.length + 1) 13) else none

/-- ASCII lowercasing of one byte, the fragment of str.lower that can affect an
ASCII suffix test. -/
def lowerByte (b : Nat) : Nat := if 65 ≤ b ∧ b ≤ 90 then b + 32 else b

/-- Test for name.lower().endswith of the four bytes of dot m p 4. -/
def isMp4 (name : List Nat) : Bool := [46, 109, 112, 52].isSuffixOf (name.map lowerByte)

/-- Storage decision of the codec (kpk_tool.py lines 69-76, kpk_repack.py lines
110-117): mp4 names are stored raw with flag 0x03; otherwise the body is
compressed and kept only if strictly smaller (flag 0x00), else stored raw with
flag 0x01.  C is the external LZ4 block compressor. -/
def encode (C : List Nat → List Nat) (name raw : List Nat) : Nat × List Nat :=
  if isMp4 name then (3, raw)
  else
    let comp := C raw
    if comp.length < raw.length then (0, comp) else (1, raw)

/-- Body decoding on extraction (kpk_tool.py line 40): LZ4-decompress exactly when
the flag byte is 0; every other flag passes the stored body through unchanged.
D is the external LZ4 block decompressor, told the target length. -/
def decode (D : List Nat → Nat → List Nat) (fl : Nat) (body : List Nat) (ds : Nat) : List Nat :=
  if fl = 0 then D body ds else body

/-- Parsed form of one full entry record before serialization. -/
structure RecSpec where
  name : List Nat
  body : List Nat
  ds : Nat
  fl : Nat
  crc : Nat
deriving DecidableEq

/-- Serialized 23-byte entry header in source order: name_len u16, stored u64,
decompressed u64, flags u8, crc u32 (kpk_tool.py lines 78-79). -/
def hdrBytes (s : RecSpec) : List Nat :=
  leBytes 2 s.name.length ++ leBytes 8 s.body.length ++ leBytes 8 s.ds ++
    leBytes 1 s.fl ++ leBytes 4 s.crc

/-- Serialized bytes of one entry record: the 23-byte header, then the name, then
the body (kpk_tool.py lines 78-81, kpk_repack.py lines 119-122). -/
def mkRecord (s : RecSpec) : List Nat := hdrBytes s ++ s.name ++ s.body

/-- Length of a serialized record: header plus name plus body. -/
def recLen (s : RecSpec) : Nat := 23 + s.name.length + s.body.length

/-- Bytes written by write_new_entry for one local file (kpk_repack.py lines
100-124): crc of the raw data, codec decision, then the serialized record. -/
def write_new_entry_record (C : List Nat → List Nat) (name raw : List Nat) : List Nat :=
  mkRecord ⟨name, (encode C name raw).2, raw.length, (encode C name raw).1, crc32 raw⟩

/-- Extraction loop (kpk_tool.py lines 32-44): like the index scan but the body is
read and decoded; note the source checks only the header for a short read, not
the name, faithfully reproduced here.  Yields (name bytes, output bytes) pairs.
Names are kept as raw bytes, so the UnicodeDecodeError the source raises on an
invalid-UTF-8 name (line 38) is outside this model; likewise D is total, so the
exception lz4.block.decompress raises on a corrupt flag-0 body is not modelled. -/
def extractLoop (D : List Nat → Nat → List Nat) (file : List Nat) :
    Nat → Nat → List (List Nat × List Nat)
  | 0, _ => []
  | fuel + 1, pos =>
    let hdr := readAt file pos 23
    if hdr.length < 23 then []
    else
      let nl := leVal (hdr.take 2)
      let cs := leVal ((hdr.drop 2).take 8)
      let ds := leVal ((hdr.drop 10).take 8)
      let fl := hdr.getD 18 0
      let name := readAt file (pos + 23) nl
      let body := readAt file (pos + 23 + nl) cs
      (name, decode D fl body ds) :: extractLoop D file fuel (pos + 23 + nl + cs)

/-- Model of extract (kpk_tool.py lines 28-47): assert the signature (none models
the AssertionError raised on a mismatch), then decode every entry in file order;
the name-decode and decompressor failures of the source are not modelled, see
extractLoop. -/
def extract (D : List Nat → Nat → List Nat) (file : List Nat) :
    Option (List (List Nat × List Nat)) :=
  if readAt file 0 13 = SIG then some (extractLoop D file (file.length + 1) 13) else none

/-- Model of pack (kpk_tool.py lines 49-84) on an already-enumerated list of
(archive name, raw content) pairs: sort by name, then write the signature
followed by each encoded record. -/
def pack (C : List Nat → List Nat) (files : List (List Nat × List Nat)) : List Nat :=
  (sortPairs files).foldl (fun acc p => acc ++ write_new_entry_record C p.1 p.2) SIG

/-- Chunked in-place copy loop of copy_block (kpk_repack.py lines 90-97): while
bytes remain, read min(CHUNK_SIZE, remaining) bytes at src+copied and write them
at dst+copied.  Fuel bounds the recursion; copy_block passes size, which is
enough because every round copies at least one byte. -/
def copy_block_fuel (src dst size : Nat) : Nat → List Nat → Nat → List Nat
  | 0, f, _ => f
  | fuel + 1, f, copied =>
    if copied < size then
      copy_block_fuel src dst size fuel
        (writeAt f (dst + copied) (readAt f (src + copied) (min CHUNK_SIZE (size - copied))))
        (copied + min CHUNK_SIZE (size - copied))
    else f

/-- Model of copy_block (kpk_repack.py lines 83-97): copy size bytes from src to
dst inside the same file, returning immediately when src = dst or size = 0. -/
def copy_block (f : List Nat) (src dst size : Nat) : List Nat :=
  if src = dst ∨ size = 0 then f else copy_block_fuel src dst size size f 0

/-- Compaction pass over the index (kpk_repack.py lines 229-243): entries whose
name is affected are skipped (deleted); a retained entry is block-copied down to
the write cursor when the cursor is strictly below its offset, and the cursor
advances by its total size.  Returns the mutated file and the final cursor. -/
def compactLoop (isAff : List Nat → Bool) :
    List IndexEntry → List Nat → Nat → List Nat × Nat
  | [], f, wp => (f, wp)
  | e :: rest, f, wp =>
    if isAff e.name then compactLoop isAff rest f wp
    else
      let f1 := if wp < e.offset then copy_block f e.offset wp e.total_size else f
      compactLoop isAff rest f1 (wp + e.total_size)

/-- Append pass (kpk_repack.py lines 251-255): write each new record at the write
cursor and advance it by the record length. -/
def appendLoop (C : List Nat → List Nat) :
    List Nat → Nat → List (List Nat × List Nat) → List Nat × Nat
  | f, wp, [] => (f, wp)
  | f, wp, p :: rest =>
    let r := write_new_entry_record C p.1 p.2
    appendLoop C (writeAt f wp r) (wp + r.length) rest

/-- Phases A, B, C of patch (kpk_repack.py lines 224-261): compact the retained
entries starting at offset 13, append the sorted local files, truncate to the
final write cursor. -/
def repackPhases (C : List Nat → List Nat) (isAff : List Nat → Bool)
    (es : List IndexEntry) (locals : List (List Nat × List Nat)) (file : List Nat) :
    List Nat :=
  let c := compactLoop isAff es file 13
  let a := appendLoop C c.1 c.2 (sortPairs locals)
  a.1.take a.2

/-- Inputs of one repack invocation: the configured folder names, which of them
exist as local directories, and the (archive name, raw content) pairs collected
by walking the existing folders. -/
structure PatchInput where
  folders : List (List Nat)
  isdir : List Nat → Bool
  localFiles : List (List Nat × List Nat)

/-- Managed prefixes in effect (kpk_repack.py lines 148-151): folder name plus a
backslash (byte 92), for exactly the configured folders that exist locally. -/
def activePrefixes (inp : PatchInput) : List (List Nat) :=
  (inp.folders.filter inp.isdir).map (fun F => F ++ [92])

/-- Test is_affected (kpk_repack.py lines 163-164): the name starts with one of
the managed prefixes. -/
def isAffected (prefixes : List (List Nat)) (name : List Nat) : Bool :=
  prefixes.any (fun p => p.isPrefixOf name)

/-- Names of the archive entries under a managed prefix (kpk_repack.py line 166). -/
def oldNamesOf (prefixes : List (List Nat)) (es : List IndexEntry) : List (List Nat) :=
  (es.filter (fun e => isAffected prefixes e.name)).map (fun e => e.name)

/-- Local names also present in the archive (kpk_repack.py line 169); the source
keeps sets, whose emptiness and membership these filtered lists mirror. -/
def modifiedOf (prefixes : List (List Nat)) (es : List IndexEntry)
    (newNames : List (List Nat)) : List (List Nat) :=
  newNames.filter (fun n => (oldNamesOf prefixes es).contains n)

/-- Managed archive names with no local counterpart (kpk_repack.py line 170). -/
def deletedOf (prefixes : List (List Nat)) (es : List IndexEntry)
    (newNames : List (List Nat)) : List (List Nat) :=
  (oldNamesOf prefixes es).filter (fun n => !(newNames.contains n))

/-- Local names absent from the archive (kpk_repack.py line 171). -/
def addedOf (prefixes : List (List Nat)) (es : List IndexEntry)
    (newNames : List (List Nat)) : List (List Nat) :=
  newNames.filter (fun n => !((oldNamesOf prefixes es).contains n))

/-- Model of patch (kpk_repack.py lines 129-275) from the point where the archive
bytes are in hand: index the archive (a signature error leaves it untouched),
return unchanged when no configured folder exists locally or when the diff is
empty, otherwise run the three repack phases.  The interactive confirmation is
modelled as given. -/
def patch (C : List Nat → List Nat) (inp : PatchInput) (file : List Nat) : List Nat :=
  match build_index file with
  | none => file
  | some es =>
    let prefixes := activePrefixes inp
    if prefixes.isEmpty then file
    else
      let newNames := inp.localFiles.map (fun p => p.1)
      if (modifiedOf prefixes es newNames).isEmpty &&
          (deletedOf prefixes es newNames).isEmpty &&
          (addedOf prefixes es newNames).isEmpty then file
      else repackPhases C (isAffected prefixes) es inp.localFiles file

/-- Retained part of the index: the entries the compaction pass keeps. -/
def retainedOf (isAff : List Nat → Bool) (es : List IndexEntry) : List IndexEntry :=
  es.filter (fun e => !(isAff e.name))

/-- Sum of the total record lengths of a list of index entries. -/
def sumSizes (es : List IndexEntry) : Nat := (es.map (fun e => e.total_size)).sum

/-- Statement that a list of index entries sits back-to-back from a given
position, each offset being the previous end. -/
def chained : Nat → List IndexEntry → Prop
  | _, [] => True
  | pos, e :: rest => e.offset = pos ∧ chained (pos + e.total_size) rest

/-- Index that scanning a back-to-back sequence of serialized records starting at
a given position should produce. -/
def specIndex : Nat → List RecSpec → List IndexEntry
  | _, [] => []
  | pos, s :: ss => ⟨s.name, pos, recLen s⟩ :: specIndex (pos + recLen s) ss

/-! Little-endian serialization lemmas. -/

theorem leBytes_length (k n : Nat) : (leBytes k n).length = k := by
  induction k generalizing n with
  | zero => rfl
  | succ k ih => simp [leBytes, ih]

theorem leVal_leBytes (k n : Nat) : leVal (leBytes k n) = n % 256 ^ k := by
  induction k generalizing n with
  | zero => simp [leBytes, leVal, Nat.mod_one]
  | succ k ih =>
    simp only [leBytes, leVal, ih]
    rw [pow_succ, mul_comm (256 ^ k) 256, Nat.mod_mul]

theorem leBytes_leVal (l : List Nat) (h : Bytes l) : leBytes l.length (leVal l) = l := by
  induction l with
  | nil => rfl
  | cons b bs ih =>
    have hb : b < 256 := h b (by simp)
    have hbs : Bytes bs := fun x hx => h x (by simp [hx])
    simp only [List.length_cons, leBytes, leVal]
    have h1 : (b + 256 * leVal bs) % 256 = b := by omega
    have h2 : (b + 256 * leVal bs) / 256 = leVal bs := by omega
    rw [h1, h2, ih hbs]

theorem Bytes_append {a b : List Nat} (ha : Bytes a) (hb : Bytes b) : Bytes (a ++ b) := by
  intro x hx
  rcases List.mem_append.mp hx with h | h
  · exact ha x h
  · exact hb x h

theorem Bytes_take {a : List Nat} (n : Nat) (ha : Bytes a) : Bytes (a.take n) :=
  fun x hx => ha x (List.mem_of_mem_take hx)

theorem Bytes_drop {a : List Nat} (n : Nat) (ha : Bytes a) : Bytes (a.drop n) :=
  fun x hx => ha x (List.mem_of_mem_drop hx)

theorem Bytes_readAt {a : List Nat} (pos n : Nat) (ha : Bytes a) : Bytes (readAt a pos n) :=
  Bytes_take n (Bytes_drop pos ha)

/-! Lexicographic-comparison lemmas. -/

theorem lexLt_irrefl (a : List Nat) : lexLt a a = false := by
  induction a with
  | nil => rfl
  | cons x xs ih => simp [lexLt, ih]

theorem lexLt_trans :
    ∀ a b c : List Nat, lexLt a b = true → lexLt b c = true → lexLt a c = true := by
  intro a
  induction a with
  | nil =>
    intro b c hab hbc
    cases b with
    | nil => exact absurd hab (by simp [lexLt])
    | cons y ys =>
      cases c with
      | nil => exact absurd hbc (by simp [lexLt])
      | cons z zs => simp [lexLt]
  | cons x xs ih =>
    intro b c hab hbc
    cases b with
    | nil => exact absurd hab (by simp [lexLt])
    | cons y ys =>
      cases c with
      | nil => exact absurd hbc (by simp [lexLt])
      | cons z zs =>
        simp only [lexLt] at hab hbc ⊢
        rcases Nat.lt_trichotomy x y with hxy | hxy | hxy
        · rcases Nat.lt_trichotomy y z with hyz | hyz | hyz
          · simp [Nat.lt_trans hxy hyz]
          · subst hyz
            simp [hxy]
          · rw [if_neg (Nat.lt_asymm hyz), if_pos hyz] at hbc
            simp at hbc
        · subst hxy
          rw [if_neg (Nat.lt_irrefl x), if_neg (Nat.lt_irrefl x)] at hab
          rcases Nat.lt_trichotomy x z with hxz | hxz | hxz
          · simp [hxz]
          · subst hxz
            rw [if_neg (Nat.lt_irrefl x), if_neg (Nat.lt_irrefl x)] at hbc ⊢
            exact ih ys zs hab hbc
          · rw [if_neg (Nat.lt_asymm hxz), if_pos hxz] at hbc
            simp at hbc
        · rw [if_neg (Nat.lt_asymm hxy), if_pos hxy] at hab
          simp at hab

theorem lexLt_false_iff (a b : List Nat) :
    lexLt a b = false ↔ (lexLt b a = true ∨ a = b) := by
  induction a generalizing b with
  | nil =>
    cases b with
    | nil => simp [lexLt]
    | cons y ys => simp [lexLt]
  | cons x xs ih =>
    cases b with
    | nil => simp [lexLt]
    | cons y ys =>
      simp only [lexLt]
      rcases Nat.lt_trichotomy x y with hxy | hxy | hxy
      · rw [if_pos hxy, if_neg (Nat.lt_asymm hxy), if_pos hxy]
        simp [show x ≠ y from by omega]
      · subst hxy
        rw [if_neg (Nat.lt_irrefl x), if_neg (Nat.lt_irrefl x), if_neg (Nat.lt_irrefl x),
          if_neg (Nat.lt_irrefl x)]
        rw [ih ys]
        simp
      · rw [if_neg (Nat.lt_asymm hxy), if_pos hxy, if_pos hxy]
        simp

instance : IsTotal (List Nat × List Nat) nameLe where
  total a b := by
    unfold nameLe
    cases hv : lexLt b.1 a.1 with
    | false => exact Or.inl rfl
    | true =>
      right
      rw [lexLt_false_iff]
      exact Or.inl hv

instance : IsTrans (List Nat × List Nat) nameLe where
  trans a b c hab hbc := by
    unfold nameLe at hab hbc ⊢
    rw [lexLt_false_iff] at hab hbc ⊢
    rcases hab with hab | hab
    · rcases hbc with hbc | hbc
      · exact Or.inl (lexLt_trans _ _ _ hab hbc)
      · rw [hbc]
        exact Or.inl hab
    · rcases hbc with hbc | hbc
      · rw [hab] at hbc
        exact Or.inl hbc
      · exact Or.inr (hbc.trans hab)

/-! readAt and writeAt algebra. -/

theorem readAt_length {f : List Nat} {pos n : Nat} (h : pos + n ≤ f.length) :
    (readAt f pos n).length = n := by
  simp only [readAt, List.length_take, List.length_drop]
  omega

theorem writeAt_eq_of_le {f : List Nat} {pos : Nat} (d : List Nat) (h : pos ≤ f.length) :
    writeAt f pos d = f.take pos ++ d ++ f.drop (pos + d.length) := by
  simp [writeAt, Nat.sub_eq_zero_of_le h]

theorem length_take_of_le {f : List Nat} {pos : Nat} (h : pos ≤ f.length) :
    (f.take pos).length = pos := by
  simp only [List.length_take]
  omega

theorem writeAt_length {f : List Nat} {pos : Nat} (d : List Nat) (h : pos ≤ f.length) :
    (writeAt f pos d).length = max f.length (pos + d.length) := by
  rw [writeAt_eq_of_le d h]
  simp only [List.length_append, List.length_take, List.length_drop]
  omega

theorem writeAt_take_full {f : List Nat} {pos : Nat} (d : List Nat) (h : pos ≤ f.length) :
    (writeAt f pos d).take (pos + d.length) = f.take pos ++ d := by
  rw [writeAt_eq_of_le d h]
  exact List.take_left' (by rw [List.length_append, length_take_of_le h])

theorem writeAt_take_pre {f : List Nat} {pos : Nat} (d : List Nat) (h : pos ≤ f.length) :
    (writeAt f pos d).take pos = f.take pos := by
  have h1 : (writeAt f pos d).take pos = ((writeAt f pos d).take (pos + d.length)).take pos := by
    rw [List.take_take]
    congr 1
    omega
  rw [h1, writeAt_take_full d h, List.take_append_of_le_length (by rw [length_take_of_le h]),
    List.take_take]
  congr 1
  omega

theorem writeAt_drop {f : List Nat} {pos q : Nat} (d : List Nat) (hq : pos + d.length ≤ q)
    (h : pos ≤ f.length) : (writeAt f pos d).drop q = f.drop q := by
  rw [writeAt_eq_of_le d h]
  have hlen : (f.take pos ++ d).length = pos + d.length := by
    rw [List.length_append, length_take_of_le h]
  have hsplit : q = (f.take pos ++ d).length + (q - (pos + d.length)) := by omega
  rw [hsplit, ← List.drop_drop, List.drop_left, List.drop_drop]
  congr 1
  omega

theorem readAt_of_take_eq {g f : List Nat} {m p n : Nat} (h : g.take m = f.take m)
    (hpn : p + n ≤ m) : readAt g p n = readAt f p n := by
  unfold readAt
  have h1 : (g.take m).drop p = (f.take m).drop p := by rw [h]
  rw [List.drop_take, List.drop_take] at h1
  have h2 : ((g.drop p).take (m - p)).take n = ((f.drop p).take (m - p)).take n := by rw [h1]
  rw [List.take_take, List.take_take] at h2
  have hmin : min n (m - p) = n := by omega
  rwa [hmin] at h2

theorem readAt_of_drop_eq {g f : List Nat} {q p n : Nat} (h : g.drop q = f.drop q)
    (hqp : q ≤ p) : readAt g p n = readAt f p n := by
  unfold readAt
  have h2 : (g.drop q).drop (p - q) = (f.drop q).drop (p - q) := by rw [h]
  rw [List.drop_drop, List.drop_drop] at h2
  have hqq : q + (p - q) = p := by omega
  rw [hqq] at h2
  rw [h2]

theorem readAt_append_readAt (f : List Nat) (p a b : Nat) :
    readAt f p a ++ readAt f (p + a) b = readAt f p (a + b) := by
  unfold readAt
  rw [List.take_add]
  congr 1
  rw [List.drop_drop]

theorem take_readAt_drop (f : List Nat) (p n : Nat) :
    f.take p ++ readAt f p n ++ f.drop (p + n) = f := by
  unfold readAt
  rw [List.append_assoc]
  have h : f.drop (p + n) = (f.drop p).drop n := by rw [List.drop_drop]
  rw [h, List.take_append_drop, List.take_append_drop]

theorem writeAt_readAt_self {f : List Nat} {p n : Nat} (h : p + n ≤ f.length) :
    writeAt f p (readAt f p n) = f := by
  rw [writeAt_eq_of_le _ (by omega), readAt_length h]
  exact take_readAt_drop f p n

theorem writeAt_nil {f : List Nat} {p : Nat} (h : p ≤ f.length) : writeAt f p [] = f := by
  rw [writeAt_eq_of_le _ h]
  simp

theorem writeAt_writeAt_adjacent {f : List Nat} {p : Nat} (d1 d2 : List Nat)
    (h : p + d1.length ≤ f.length) :
    writeAt (writeAt f p d1) (p + d1.length) d2 = writeAt f p (d1 ++ d2) := by
  have hp : p ≤ f.length := by omega
  have hlen : p + d1.length ≤ (writeAt f p d1).length := by
    rw [writeAt_length d1 hp]
    omega
  rw [writeAt_eq_of_le d2 hlen, writeAt_take_full d1 hp,
    writeAt_drop d1 (by omega) hp, writeAt_eq_of_le (d1 ++ d2) hp]
  simp [List.append_assoc, List.length_append, Nat.add_assoc]

/-! Correctness of the chunked overlapping copy. -/

theorem copy_block_fuel_spec {src dst size : Nat} (hds : dst ≤ src) {f : List Nat}
    (hfit : src + size ≤ f.length) :
    ∀ fuel copied, size - copied ≤ fuel → copied ≤ size →
      copy_block_fuel src dst size fuel (writeAt f dst (readAt f src copied)) copied
        = writeAt f dst (readAt f src size) := by
  intro fuel
  induction fuel with
  | zero =>
    intro copied h1 h2
    have h3 : copied = size := by omega
    subst h3
    rfl
  | succ fuel ih =>
    intro copied h1 h2
    by_cases hlt : copied < size
    · have hn1 : 1 ≤ min CHUNK_SIZE (size - copied) := by
        have : 0 < CHUNK_SIZE := by norm_num [CHUNK_SIZE]
        omega
      have hn2 : copied + min CHUNK_SIZE (size - copied) ≤ size := by omega
      have hRlen : (readAt f src copied).length = copied := readAt_length (by omega)
      have hdlef : dst + copied ≤ f.length := by omega
      have hdrop : (writeAt f dst (readAt f src copied)).drop (dst + copied)
          = f.drop (dst + copied) := by
        apply writeAt_drop
        · rw [hRlen]
        · omega
      have hdata : readAt (writeAt f dst (readAt f src copied)) (src + copied)
            (min CHUNK_SIZE (size - copied))
          = readAt f (src + copied) (min CHUNK_SIZE (size - copied)) :=
        readAt_of_drop_eq hdrop (by omega)
      have hwrite : writeAt (writeAt f dst (readAt f src copied)) (dst + copied)
            (readAt f (src + copied) (min CHUNK_SIZE (size - copied)))
          = writeAt f dst (readAt f src (copied + min CHUNK_SIZE (size - copied))) := by
        have hadj := writeAt_writeAt_adjacent (f := f) (p := dst)
          (readAt f src copied)
          (readAt f (src + copied) (min CHUNK_SIZE (size - copied)))
          (by rw [hRlen]; omega)
        rw [hRlen] at hadj
        rw [hadj, readAt_append_readAt]
      simp only [copy_block_fuel, if_pos hlt]
      rw [hdata, hwrite]
      exact ih (copied + min CHUNK_SIZE (size - copied)) (by omega) hn2
    · simp only [copy_block_fuel, if_neg hlt]
      have h3 : copied = size := by omega
      subst h3
      rfl

theorem copy_block_eq {f : List Nat} {src dst size : Nat} (hds : dst ≤ src)
    (hfit : src + size ≤ f.length) :
    copy_block f src dst size = writeAt f dst (readAt f src size) := by
  unfold copy_block
  by_cases h : src = dst ∨ size = 0
  · rw [if_pos h]
    rcases h with h | h
    · subst h
      exact (writeAt_readAt_self (by omega)).symm
    · subst h
      rw [show readAt f src 0 = [] from by simp [readAt]]
      exact (writeAt_nil (by omega)).symm
  · rw [if_neg h]
    have h0 := copy_block_fuel_spec hds hfit size 0 (by omega) (by omega)
    rw [show readAt f src 0 = [] from by simp [readAt], writeAt_nil (by omega)] at h0
    exact h0

/-! Index arithmetic: sizes, chaining, and the compaction invariant. -/

theorem sumSizes_nil : sumSizes [] = 0 := rfl

theorem sumSizes_cons (e : IndexEntry) (es : List IndexEntry) :
    sumSizes (e :: es) = e.total_size + sumSizes es := by
  simp [sumSizes]

theorem sumSizes_append (a b : List IndexEntry) :
    sumSizes (a ++ b) = sumSizes a + sumSizes b := by
  simp [sumSizes]

theorem retainedOf_cons (isAff : List Nat → Bool) (e : IndexEntry) (es : List IndexEntry) :
    retainedOf isAff (e :: es)
      = if isAff e.name then retainedOf isAff es else e :: retainedOf isAff es := by
  by_cases h : isAff e.name <;> simp [retainedOf, List.filter_cons, h]

theorem sumSizes_retained_le (isAff : List Nat → Bool) (es : List IndexEntry) :
    sumSizes (retainedOf isAff es) ≤ sumSizes es := by
  induction es with
  | nil => simp [retainedOf]
  | cons e rest ih =>
    rw [retainedOf_cons, sumSizes_cons]
    by_cases h : isAff e.name
    · rw [if_pos h]
      omega
    · rw [if_neg h, sumSizes_cons]
      omega

theorem compactLoop_snd (isAff : List Nat → Bool) :
    ∀ (es : List IndexEntry) (f : List Nat) (wp : Nat),
      (compactLoop isAff es f wp).2 = wp + sumSizes (retainedOf isAff es) := by
  intro es
  induction es with
  | nil =>
    intro f wp
    simp [compactLoop, retainedOf, sumSizes]
  | cons e rest ih =>
    intro f wp
    rw [retainedOf_cons]
    by_cases h : isAff e.name
    · rw [if_pos h]
      simp only [compactLoop, if_pos h]
      exact ih _ wp
    · rw [if_neg h, sumSizes_cons]
      simp only [compactLoop, if_neg h]
      rw [ih]
      omega

theorem chained_append_cons :
    ∀ (pre : List IndexEntry) (pos : Nat) (e : IndexEntry) (post : List IndexEntry),
      chained pos (pre ++ e :: post) → e.offset = pos + sumSizes pre := by
  intro pre
  induction pre with
  | nil =>
    intro pos e post h
    rw [sumSizes_nil, Nat.add_zero]
    exact h.1
  | cons p ps ih =>
    intro pos e post h
    have h2 := ih (pos + p.total_size) e post h.2
    rw [h2, sumSizes_cons]
    omega

theorem chained_fit {L : Nat} :
    ∀ (es : List IndexEntry) (pos : Nat), chained pos es → pos + sumSizes es ≤ L →
      ∀ e ∈ es, pos ≤ e.offset ∧ e.offset + e.total_size ≤ L := by
  intro es
  induction es with
  | nil =>
    intro pos _ _ e he
    exact absurd he (List.not_mem_nil e)
  | cons p ps ih =>
    intro pos hch hfit e he
    obtain ⟨hoff, hch2⟩ := hch
    rw [sumSizes_cons] at hfit
    rcases List.mem_cons.mp he with h | h
    · subst h
      constructor
      · omega
      · have : sumSizes ps ≥ 0 := Nat.zero_le _
        omega
    · have := ih (pos + p.total_size) hch2 (by omega) e h
      omega

theorem flatten_slices_length (file : List Nat) :
    ∀ es : List IndexEntry, (∀ e ∈ es, e.offset + e.total_size ≤ file.length) →
      ((es.map (fun e => readAt file e.offset e.total_size)).flatten).length = sumSizes es := by
  intro es
  induction es with
  | nil => simp [sumSizes]
  | cons e rest ih =>
    intro h
    simp only [List.map_cons, List.flatten_cons, List.length_append, sumSizes_cons]
    rw [readAt_length (h e (by simp)), ih (fun x hx => h x (by simp [hx]))]

theorem compactLoop_spec (isAff : List Nat → Bool) :
    ∀ (es : List IndexEntry) (f g acc : List Nat) (pos wp : Nat),
      chained pos es → wp ≤ pos → pos + sumSizes es ≤ f.length →
      g.length = f.length → g.take wp = acc → acc.length = wp → g.drop pos = f.drop pos →
      (compactLoop isAff es g wp).1.length = f.length ∧
      (compactLoop isAff es g wp).1.take (wp + sumSizes (retainedOf isAff es))
        = acc ++
          ((retainedOf isAff es).map (fun e => readAt f e.offset e.total_size)).flatten := by
  intro es
  induction es with
  | nil =>
    intro f g acc pos wp _ _ _ hlen htake _ _
    refine ⟨hlen, ?_⟩
    simp only [retainedOf, List.filter_nil, sumSizes_nil, Nat.add_zero, List.map_nil,
      List.flatten_nil, List.append_nil]
    exact htake
  | cons e rest ih =>
    intro f g acc pos wp hch hwp hfit hlen htake hacc hdrop
    obtain ⟨hoff, hch2⟩ := hch
    rw [sumSizes_cons] at hfit
    by_cases haff : isAff e.name
    · have hres := ih f g acc (pos + e.total_size) wp hch2 (by omega) (by omega) hlen htake hacc
        (by rw [← List.drop_drop, ← List.drop_drop, hdrop])
      rw [retainedOf_cons, if_pos haff]
      simp only [compactLoop, if_pos haff]
      exact hres
    · have hfite : e.offset + e.total_size ≤ f.length := by omega
      have hsz : (readAt f e.offset e.total_size).length = e.total_size := readAt_length hfite
      by_cases hlt : wp < e.offset
      · have hwplen : wp ≤ g.length := by rw [hlen]; omega
        have hcopy : copy_block g e.offset wp e.total_size
            = writeAt g wp (readAt f e.offset e.total_size) := by
          rw [copy_block_eq (by omega) (by rw [hlen]; omega)]
          congr 1
          exact readAt_of_drop_eq hdrop (by omega)
        have hglen : (writeAt g wp (readAt f e.offset e.total_size)).length = f.length := by
          rw [writeAt_length _ hwplen, hsz, hlen]
          omega
        have htake2 : (writeAt g wp (readAt f e.offset e.total_size)).take (wp + e.total_size)
            = acc ++ readAt f e.offset e.total_size := by
          have h4 := @writeAt_take_full g wp (readAt f e.offset e.total_size) hwplen
          rw [hsz] at h4
          rw [h4, htake]
        have hdrop2 : (writeAt g wp (readAt f e.offset e.total_size)).drop (pos + e.total_size)
            = f.drop (pos + e.total_size) := by
          have hd : (writeAt g wp (readAt f e.offset e.total_size)).drop (pos + e.total_size)
              = g.drop (pos + e.total_size) := writeAt_drop _ (by rw [hsz]; omega) hwplen
          rw [hd, ← List.drop_drop, ← List.drop_drop, hdrop]
        have hres := ih f (writeAt g wp (readAt f e.offset e.total_size))
          (acc ++ readAt f e.offset e.total_size) (pos + e.total_size) (wp + e.total_size)
          hch2 (by omega) (by omega) hglen htake2
          (by rw [List.length_append, hacc, hsz]) hdrop2
        rw [retainedOf_cons, if_neg haff, sumSizes_cons, List.map_cons, List.flatten_cons]
        have harr : wp + (e.total_size + sumSizes (retainedOf isAff rest))
            = wp + e.total_size + sumSizes (retainedOf isAff rest) := by omega
        rw [harr, ← List.append_assoc]
        simp only [compactLoop, if_neg haff]
        rw [if_pos hlt, hcopy]
        exact hres
      · have hwppos : wp = pos := by omega
        have htake2 : g.take (wp + e.total_size) = acc ++ readAt f e.offset e.total_size := by
          rw [List.take_add, htake]
          congr 1
          rw [hwppos, hdrop, hoff]
          rfl
        have hdrop2 : g.drop (pos + e.total_size) = f.drop (pos + e.total_size) := by
          rw [← List.drop_drop, ← List.drop_drop, hdrop]
        have hres := ih f g (acc ++ readAt f e.offset e.total_size)
          (pos + e.total_size) (wp + e.total_size) hch2 (by omega) (by omega) hlen htake2
          (by rw [List.length_append, hacc, hsz]) hdrop2
        rw [retainedOf_cons, if_neg haff, sumSizes_cons, List.map_cons, List.flatten_cons]
        have harr : wp + (e.total_size + sumSizes (retainedOf isAff rest))
            = wp + e.total_size + sumSizes (retainedOf isAff rest) := by omega
        rw [harr, ← List.append_assoc]
        simp only [compactLoop, if_neg haff]
        rw [if_neg hlt]
        exact hres

theorem appendLoop_spec (C : List Nat → List Nat) :
    ∀ (ps : List (List Nat × List Nat)) (g acc : List Nat) (wp : Nat),
      wp ≤ g.length → g.take wp = acc → acc.length = wp →
      (appendLoop C g wp ps).2
          = wp + ((ps.map (fun p => write_new_entry_record C p.1 p.2)).map List.length).sum ∧
      (appendLoop C g wp ps).2 ≤ (appendLoop C g wp ps).1.length ∧
      (appendLoop C g wp ps).1.take (appendLoop C g wp ps).2
        = acc ++ (ps.map (fun p => write_new_entry_record C p.1 p.2)).flatten := by
  intro ps
  induction ps with
  | nil =>
    intro g acc wp hwp htake hacc
    refine ⟨by simp [appendLoop], by simpa [appendLoop] using hwp, ?_⟩
    simpa [appendLoop] using htake
  | cons p rest ih =>
    intro g acc wp hwp htake hacc
    have hlen2 : (writeAt g wp (write_new_entry_record C p.1 p.2)).length
        = max g.length (wp + (write_new_entry_record C p.1 p.2).length) :=
      writeAt_length _ hwp
    have htake2 : (writeAt g wp (write_new_entry_record C p.1 p.2)).take
          (wp + (write_new_entry_record C p.1 p.2).length)
        = acc ++ write_new_entry_record C p.1 p.2 := by
      rw [writeAt_take_full _ hwp, htake]
    have hres := ih (writeAt g wp (write_new_entry_record C p.1 p.2))
      (acc ++ write_new_entry_record C p.1 p.2)
      (wp + (write_new_entry_record C p.1 p.2).length)
      (by rw [hlen2]; omega) htake2 (by rw [List.length_append, hacc])
    simp only [appendLoop, List.map_cons, List.flatten_cons, List.sum_cons]
    refine ⟨?_, hres.2.1, ?_⟩
    · rw [hres.1]
      omega
    · rw [hres.2.2, ← List.append_assoc]

theorem repackPhases_spec (C : List Nat → List Nat) (isAff : List Nat → Bool)
    (es : List IndexEntry) (locals : List (List Nat × List Nat)) (file : List Nat)
    (hch : chained 13 es) (hfit : 13 + sumSizes es ≤ file.length) :
    repackPhases C isAff es locals file
      = file.take 13
        ++ ((retainedOf isAff es).map (fun e => readAt file e.offset e.total_size)).flatten
        ++ ((sortPairs locals).map (fun p => write_new_entry_record C p.1 p.2)).flatten ∧
    (repackPhases C isAff es locals file).length
      = 13 + sumSizes (retainedOf isAff es)
        + (((sortPairs locals).map (fun p => write_new_entry_record C p.1 p.2)).map
            List.length).sum := by
  have h13 : (13 : Nat) ≤ file.length := by omega
  have hc := compactLoop_spec isAff es file file (file.take 13) 13 13 hch le_rfl hfit rfl rfl
    (length_take_of_le h13) rfl
  have hsnd := compactLoop_snd isAff es file 13
  have hretfit : ∀ e ∈ retainedOf isAff es, e.offset + e.total_size ≤ file.length := by
    intro e he
    have hmem : e ∈ es := List.mem_of_mem_filter he
    exact (chained_fit es 13 hch hfit e hmem).2
  have hflatlen :
      (((retainedOf isAff es).map (fun e => readAt file e.offset e.total_size)).flatten).length
        = sumSizes (retainedOf isAff es) := flatten_slices_length file _ hretfit
  have hwp1le : (compactLoop isAff es file 13).2 ≤ (compactLoop isAff es file 13).1.length := by
    rw [hsnd, hc.1]
    have := sumSizes_retained_le isAff es
    omega
  have htake1 : (compactLoop isAff es file 13).1.take (compactLoop isAff es file 13).2
      = file.take 13
        ++ ((retainedOf isAff es).map (fun e => readAt file e.offset e.total_size)).flatten := by
    rw [hsnd]
    exact hc.2
  have hacclen : (file.take 13
      ++ ((retainedOf isAff es).map (fun e => readAt file e.offset e.total_size)).flatten).length
      = (compactLoop isAff es file 13).2 := by
    rw [List.length_append, length_take_of_le h13, hflatlen, hsnd]
  have ha := appendLoop_spec C (sortPairs locals) (compactLoop isAff es file 13).1
    (file.take 13
      ++ ((retainedOf isAff es).map (fun e => readAt file e.offset e.total_size)).flatten)
    (compactLoop isAff es file 13).2 hwp1le htake1 hacclen
  constructor
  · unfold repackPhases
    rw [ha.2.2, List.append_assoc]
  · unfold repackPhases
    have hlen := List.length_take
      (appendLoop C (compactLoop isAff es file 13).1 (compactLoop isAff es file 13).2
        (sortPairs locals)).2
      (appendLoop C (compactLoop isAff es file 13).1 (compactLoop isAff es file 13).2
        (sortPairs locals)).1
    rw [hlen]
    have h2 := ha.2.1
    have h1 := ha.1
    rw [h1, hsnd] at h2 ⊢
    omega

/-! Scanning lemmas: structure of the index produced by build_index, and the
index produced by scanning a concatenation of serialized records. -/

theorem leVal_lt (l : List Nat) (h : Bytes l) : leVal l < 256 ^ l.length := by
  induction l with
  | nil => simp [leVal]
  | cons b bs ih =>
    have hb : b < 256 := h b (by simp)
    have := ih (fun x hx => h x (by simp [hx]))
    simp only [leVal, List.length_cons, pow_succ]
    calc b + 256 * leVal bs < 256 + 256 * leVal bs := by omega
    _ = 256 * (leVal bs + 1) := by ring
    _ ≤ 256 * 256 ^ bs.length := by
        have : leVal bs + 1 ≤ 256 ^ bs.length := this
        exact Nat.mul_le_mul_left 256 this
    _ = 256 ^ bs.length * 256 := by ring

theorem hdrBytes_length (s : RecSpec) : (hdrBytes s).length = 23 := by
  simp [hdrBytes, List.length_append, leBytes_length]

theorem mkRecord_length (s : RecSpec) : (mkRecord s).length = recLen s := by
  simp [mkRecord, recLen, List.length_append, hdrBytes_length]
  omega

theorem chained_buildIndexLoop (file : List Nat) :
    ∀ fuel pos, chained pos (buildIndexLoop file fuel pos) := by
  intro fuel
  induction fuel with
  | zero => intro pos; trivial
  | succ fuel ih =>
    intro pos
    simp only [buildIndexLoop]
    split
    · trivial
    · split
      · trivial
      · exact ⟨rfl, ih _⟩

theorem build_index_chained {file : List Nat} {es : List IndexEntry}
    (h : build_index file = some es) : chained 13 es := by
  unfold build_index at h
  by_cases hsig : readAt file 0 13 = SIG
  · rw [if_pos hsig] at h
    obtain rfl := Option.some_injective _ h.symm
    exact chained_buildIndexLoop file _ 13
  · rw [if_neg hsig] at h
    cases h

theorem build_index_sig {file : List Nat} {es : List IndexEntry}
    (h : build_index file = some es) : file.take 13 = SIG := by
  unfold build_index at h
  by_cases hsig : readAt file 0 13 = SIG
  · rw [← hsig]
    simp [readAt]
  · rw [if_neg hsig] at h
    cases h

theorem buildIndexLoop_mem (file : List Nat) :
    ∀ fuel pos e, e ∈ buildIndexLoop file fuel pos →
      (readAt file e.offset 23).length = 23 ∧
      e.name = readAt file (e.offset + 23) (leVal ((readAt file e.offset 23).take 2)) ∧
      e.name.length = leVal ((readAt file e.offset 23).take 2) ∧
      e.total_size = 23 + leVal ((readAt file e.offset 23).take 2)
        + leVal (((readAt file e.offset 23).drop 2).take 8) := by
  intro fuel
  induction fuel with
  | zero =>
    intro pos e he
    cases he
  | succ fuel ih =>
    intro pos e he
    simp only [buildIndexLoop] at he
    by_cases h23 : (readAt file pos 23).length < 23
    · rw [if_pos h23] at he
      cases he
    · rw [if_neg h23] at he
      by_cases hnl : (readAt file (pos + 23) (leVal ((readAt file pos 23).take 2))).length
          < leVal ((readAt file pos 23).take 2)
      · rw [if_pos hnl] at he
        cases he
      · rw [if_neg hnl] at he
        rcases List.mem_cons.mp he with h | h
        · subst h
          have hl : (readAt file pos 23).length = 23 := by
            have : (readAt file pos 23).length ≤ 23 := by
              simp [readAt, List.length_take]
            omega
          have hnml : (readAt file (pos + 23) (leVal ((readAt file pos 23).take 2))).length
              = leVal ((readAt file pos 23).take 2) := by
            have : (readAt file (pos + 23) (leVal ((readAt file pos 23).take 2))).length
                ≤ leVal ((readAt file pos 23).take 2) := by
              simp [readAt, List.length_take]
            omega
          exact ⟨hl, rfl, hnml, rfl⟩
        · exact ih _ e h

theorem leBytes_leVal_len (l : List Nat) (k : Nat) (hb : Bytes l) (hl : l.length = k) :
    leBytes k (leVal l) = l := by
  subst hl
  exact leBytes_leVal l hb

theorem hdr_decompose (h : List Nat) (hb : Bytes h) (hlen : h.length = 23) :
    h = leBytes 2 (leVal (h.take 2)) ++ (leBytes 8 (leVal ((h.drop 2).take 8))
      ++ (leBytes 8 (leVal ((h.drop 10).take 8)) ++ (leBytes 1 (leVal ((h.drop 18).take 1))
      ++ leBytes 4 (leVal ((h.drop 19).take 4))))) := by
  have c1 : leBytes 2 (leVal (h.take 2)) = h.take 2 :=
    leBytes_leVal_len _ 2 (Bytes_take _ hb) (by rw [List.length_take]; omega)
  have c2 : leBytes 8 (leVal ((h.drop 2).take 8)) = (h.drop 2).take 8 :=
    leBytes_leVal_len _ 8 (Bytes_take _ (Bytes_drop _ hb))
      (by rw [List.length_take, List.length_drop]; omega)
  have c3 : leBytes 8 (leVal ((h.drop 10).take 8)) = (h.drop 10).take 8 :=
    leBytes_leVal_len _ 8 (Bytes_take _ (Bytes_drop _ hb))
      (by rw [List.length_take, List.length_drop]; omega)
  have c4 : leBytes 1 (leVal ((h.drop 18).take 1)) = (h.drop 18).take 1 :=
    leBytes_leVal_len _ 1 (Bytes_take _ (Bytes_drop _ hb))
      (by rw [List.length_take, List.length_drop]; omega)
  have c5 : leBytes 4 (leVal ((h.drop 19).take 4)) = (h.drop 19).take 4 :=
    leBytes_leVal_len _ 4 (Bytes_take _ (Bytes_drop _ hb))
      (by rw [List.length_take, List.length_drop]; omega)
  have d1 : (h.drop 2).drop 8 = h.drop 10 := by
    rw [List.drop_drop]
  have d2 : (h.drop 10).drop 8 = h.drop 18 := by
    rw [List.drop_drop]
  have d3 : (h.drop 18).drop 1 = h.drop 19 := by
    rw [List.drop_drop]
  have t5 : (h.drop 19).take 4 = h.drop 19 :=
    List.take_of_length_le (by rw [List.length_drop]; omega)
  have e18 : h.drop 18 = (h.drop 18).take 1 ++ h.drop 19 := by
    rw [← d3, List.take_append_drop]
  have e10 : h.drop 10 = (h.drop 10).take 8 ++ h.drop 18 := by
    rw [← d2, List.take_append_drop]
  have e2 : h.drop 2 = (h.drop 2).take 8 ++ h.drop 10 := by
    rw [← d1, List.take_append_drop]
  rw [c1, c2, c3, c4, c5, t5]
  conv_lhs => rw [← List.take_append_drop 2 h, e2, e10, e18]

theorem buildIndex_slice_spec {file : List Nat} (hbytes : Bytes file) {fuel pos : Nat}
    {e : IndexEntry} (he : e ∈ buildIndexLoop file fuel pos)
    (hfit : e.offset + e.total_size ≤ file.length) :
    ∃ s : RecSpec, readAt file e.offset e.total_size = mkRecord s ∧ s.name = e.name ∧
      recLen s = e.total_size ∧ s.name.length < 2 ^ 16 ∧ s.body.length < 2 ^ 64 := by
  obtain ⟨h23, hname, hnl, hts⟩ := buildIndexLoop_mem file fuel pos e he
  have hbh : Bytes (readAt file e.offset 23) := Bytes_readAt _ _ hbytes
  have hbodylen : (readAt file
      (e.offset + 23 + leVal ((readAt file e.offset 23).take 2))
      (leVal (((readAt file e.offset 23).drop 2).take 8))).length
      = leVal (((readAt file e.offset 23).drop 2).take 8) := by
    apply readAt_length
    omega
  refine ⟨⟨e.name,
    readAt file (e.offset + 23 + leVal ((readAt file e.offset 23).take 2))
      (leVal (((readAt file e.offset 23).drop 2).take 8)),
    leVal (((readAt file e.offset 23).drop 10).take 8),
    leVal (((readAt file e.offset 23).drop 18).take 1),
    leVal (((readAt file e.offset 23).drop 19).take 4)⟩, ?_, rfl, ?_, ?_, ?_⟩
  · have hsplit1 : readAt file e.offset e.total_size
        = readAt file e.offset 23
          ++ readAt file (e.offset + 23)
            (leVal ((readAt file e.offset 23).take 2)
              + leVal (((readAt file e.offset 23).drop 2).take 8)) := by
      rw [hts, show 23 + leVal ((readAt file e.offset 23).take 2)
          + leVal (((readAt file e.offset 23).drop 2).take 8)
          = 23 + (leVal ((readAt file e.offset 23).take 2)
            + leVal (((readAt file e.offset 23).drop 2).take 8)) from by omega,
        ← readAt_append_readAt]
    have hsplit2 : readAt file (e.offset + 23)
        (leVal ((readAt file e.offset 23).take 2)
          + leVal (((readAt file e.offset 23).drop 2).take 8))
        = readAt file (e.offset + 23) (leVal ((readAt file e.offset 23).take 2))
          ++ readAt file (e.offset + 23 + leVal ((readAt file e.offset 23).take 2))
            (leVal (((readAt file e.offset 23).drop 2).take 8)) := by
      rw [← readAt_append_readAt]
    rw [hsplit1, hsplit2, ← hname]
    have hhdr : hdrBytes ⟨e.name,
        readAt file (e.offset + 23 + leVal ((readAt file e.offset 23).take 2))
          (leVal (((readAt file e.offset 23).drop 2).take 8)),
        leVal (((readAt file e.offset 23).drop 10).take 8),
        leVal (((readAt file e.offset 23).drop 18).take 1),
        leVal (((readAt file e.offset 23).drop 19).take 4)⟩ = readAt file e.offset 23 := by
      simp only [hdrBytes]
      rw [hnl, hbodylen]
      conv_rhs => rw [hdr_decompose (readAt file e.offset 23) hbh h23]
      simp [List.append_assoc]
    simp only [mkRecord]
    rw [hhdr]
    simp [List.append_assoc]
  · unfold recLen
    simp only []
    rw [hbodylen, hnl]
    omega
  · simp only []
    rw [hnl]
    have := leVal_lt ((readAt file e.offset 23).take 2) (Bytes_take _ hbh)
    have hl2 : ((readAt file e.offset 23).take 2).length = 2 := by
      rw [List.length_take]
      omega
    rw [hl2] at this
    norm_num at this ⊢
    omega
  · simp only []
    rw [hbodylen]
    have := leVal_lt (((readAt file e.offset 23).drop 2).take 8)
      (Bytes_take _ (Bytes_drop _ hbh))
    have hl8 : (((readAt file e.offset 23).drop 2).take 8).length = 8 := by
      rw [List.length_take, List.length_drop]
      omega
    rw [hl8] at this
    norm_num at this ⊢
    omega

/-! Rescanning a concatenation of serialized records. -/

theorem flatten_records_length (specs : List RecSpec) :
    ((specs.map mkRecord).flatten).length = (specs.map recLen).sum := by
  induction specs with
  | nil => simp
  | cons s ss ih => simp [mkRecord_length, ih]

theorem specs_count_le_sum (specs : List RecSpec) :
    specs.length ≤ (specs.map recLen).sum := by
  induction specs with
  | nil => simp
  | cons s ss ih =>
    simp only [List.length_cons, List.map_cons, List.sum_cons]
    have h1 : 1 ≤ recLen s := by unfold recLen; omega
    omega

theorem specIndex_names (pos : Nat) (specs : List RecSpec) :
    (specIndex pos specs).map (fun e => e.name) = specs.map (fun s => s.name) := by
  induction specs generalizing pos with
  | nil => rfl
  | cons s ss ih => simp [specIndex, ih]

theorem sumSizes_specIndex (pos : Nat) (specs : List RecSpec) :
    sumSizes (specIndex pos specs) = (specs.map recLen).sum := by
  induction specs generalizing pos with
  | nil => rfl
  | cons s ss ih =>
    simp only [specIndex, sumSizes_cons, ih, List.map_cons, List.sum_cons]

theorem specIndex_append (pos : Nat) (a b : List RecSpec) :
    specIndex pos (a ++ b) = specIndex pos a ++ specIndex (pos + (a.map recLen).sum) b := by
  induction a generalizing pos with
  | nil => simp [specIndex]
  | cons s ss ih =>
    simp only [List.cons_append, specIndex, List.append_eq, List.map_cons, List.sum_cons, ih,
      List.cons_append]
    rw [Nat.add_assoc]

theorem mkRecord_take_hdr (s : RecSpec) (rest : List Nat) :
    (mkRecord s ++ rest).take 23 = hdrBytes s := by
  rw [mkRecord, List.append_assoc, List.append_assoc, ← hdrBytes_length s]
  exact List.take_left _ _

theorem mkRecord_drop_hdr (s : RecSpec) (rest : List Nat) :
    (mkRecord s ++ rest).drop 23 = s.name ++ (s.body ++ rest) := by
  rw [mkRecord, List.append_assoc, List.append_assoc, ← hdrBytes_length s]
  exact List.drop_left _ _

theorem hdrBytes_take2 (s : RecSpec) : (hdrBytes s).take 2 = leBytes 2 s.name.length := by
  rw [hdrBytes, List.append_assoc, List.append_assoc, List.append_assoc,
    List.take_append_of_le_length (by rw [leBytes_length])]
  exact List.take_of_length_le (by rw [leBytes_length])

theorem hdrBytes_drop2_take8 (s : RecSpec) :
    ((hdrBytes s).drop 2).take 8 = leBytes 8 s.body.length := by
  rw [hdrBytes, List.append_assoc, List.append_assoc, List.append_assoc,
    List.drop_left' (leBytes_length 2 _),
    List.take_append_of_le_length (by rw [leBytes_length])]
  exact List.take_of_length_le (by rw [leBytes_length])

theorem buildIndexLoop_records :
    ∀ (specs : List RecSpec) (pre : List Nat) (fuel : Nat),
      specs.length < fuel →
      (∀ s ∈ specs, s.name.length < 2 ^ 16 ∧ s.body.length < 2 ^ 64) →
      buildIndexLoop (pre ++ (specs.map mkRecord).flatten) fuel pre.length
        = specIndex pre.length specs := by
  intro specs
  induction specs with
  | nil =>
    intro pre fuel hf _
    cases fuel with
    | zero => omega
    | succ fuel =>
      simp only [List.map_nil, List.flatten_nil, List.append_nil, buildIndexLoop, specIndex]
      rw [if_pos (by simp [readAt, List.drop_length])]
  | cons s ss ih =>
    intro pre fuel hf hb
    cases fuel with
    | zero => omega
    | succ fuel =>
      obtain ⟨hb1, hb2⟩ := hb s (by simp)
      have hb1' : s.name.length < 256 ^ 2 := by
        have : (256 : Nat) ^ 2 = 2 ^ 16 := by norm_num
        omega
      have hb2' : s.body.length < 256 ^ 8 := by
        have : (256 : Nat) ^ 8 = 2 ^ 64 := by norm_num
        omega
      have hdropPre : (pre ++ (List.map mkRecord (s :: ss)).flatten).drop pre.length
          = mkRecord s ++ (ss.map mkRecord).flatten := by
        rw [List.map_cons, List.flatten_cons, ← List.append_assoc]
        rw [show (pre ++ mkRecord s ++ (ss.map mkRecord).flatten)
            = pre ++ (mkRecord s ++ (ss.map mkRecord).flatten) from by
          rw [List.append_assoc]]
        exact List.drop_left _ _
      have hhdr : readAt (pre ++ (List.map mkRecord (s :: ss)).flatten) pre.length 23
          = hdrBytes s := by
        unfold readAt
        rw [hdropPre, mkRecord_take_hdr]
      have hnl : leVal ((hdrBytes s).take 2) = s.name.length := by
        rw [hdrBytes_take2, leVal_leBytes, Nat.mod_eq_of_lt hb1']
      have hcs : leVal (((hdrBytes s).drop 2).take 8) = s.body.length := by
        rw [hdrBytes_drop2_take8, leVal_leBytes, Nat.mod_eq_of_lt hb2']
      have hnameB : readAt (pre ++ (List.map mkRecord (s :: ss)).flatten)
          (pre.length + 23) s.name.length = s.name := by
        unfold readAt
        rw [← List.drop_drop, hdropPre, mkRecord_drop_hdr]
        rw [List.take_append_of_le_length (le_refl _)]
        exact List.take_length s.name
      simp only [buildIndexLoop]
      rw [hhdr, hnl, hcs, hnameB]
      rw [if_neg (by rw [hdrBytes_length]; omega), if_neg (by omega)]
      have hrec : buildIndexLoop (pre ++ (List.map mkRecord (s :: ss)).flatten) fuel
          (pre.length + (23 + s.name.length + s.body.length))
          = specIndex (pre.length + recLen s) ss := by
        have hfile : pre ++ (List.map mkRecord (s :: ss)).flatten
            = (pre ++ mkRecord s) ++ (ss.map mkRecord).flatten := by
          rw [List.map_cons, List.flatten_cons, List.append_assoc]
        have hlen : (pre ++ mkRecord s).length = pre.length + recLen s := by
          rw [List.length_append, mkRecord_length]
        have := ih (pre ++ mkRecord s) fuel (by simp at hf ⊢; omega)
          (fun x hx => hb x (by simp [hx]))
        rw [hlen] at this
        rw [hfile, show pre.length + (23 + s.name.length + s.body.length)
            = pre.length + recLen s from by unfold recLen; omega]
        exact this
      rw [hrec]
      rfl

theorem build_index_records (specs : List RecSpec)
    (hb : ∀ s ∈ specs, s.name.length < 2 ^ 16 ∧ s.body.length < 2 ^ 64) :
    build_index (SIG ++ (specs.map mkRecord).flatten) = some (specIndex 13 specs) := by
  unfold build_index
  have hsig : readAt (SIG ++ (specs.map mkRecord).flatten) 0 13 = SIG := by
    unfold readAt
    rw [List.drop_zero]
    exact List.take_left' rfl
  rw [if_pos hsig]
  congr 1
  have hfuel : specs.length < (SIG ++ (specs.map mkRecord).flatten).length + 1 := by
    rw [List.length_append, flatten_records_length]
    have := specs_count_le_sum specs
    omega
  have := buildIndexLoop_records specs SIG _ hfuel hb
  rw [show SIG.length = 13 from rfl] at this
  exact this

theorem slices_specIndex :
    ∀ (specs : List RecSpec) (pre : List Nat),
      (specIndex pre.length specs).map
        (fun e => readAt (pre ++ (specs.map mkRecord).flatten) e.offset e.total_size)
      = specs.map mkRecord := by
  intro specs
  induction specs with
  | nil => simp [specIndex]
  | cons s ss ih =>
    intro pre
    simp only [specIndex, List.map_cons, List.flatten_cons]
    have hdropPre : (pre ++ (mkRecord s ++ (ss.map mkRecord).flatten)).drop pre.length
        = mkRecord s ++ (ss.map mkRecord).flatten := by
      rw [show pre ++ (mkRecord s ++ (ss.map mkRecord).flatten)
          = pre ++ (mkRecord s ++ (ss.map mkRecord).flatten) from rfl]
      exact List.drop_left _ _
    have hhead : readAt (pre ++ (mkRecord s ++ (ss.map mkRecord).flatten)) pre.length
        (recLen s) = mkRecord s := by
      unfold readAt
      rw [hdropPre, ← mkRecord_length s]
      exact List.take_left _ _
    have htail : (specIndex (pre.length + recLen s) ss).map
        (fun e => readAt (pre ++ (mkRecord s ++ (ss.map mkRecord).flatten))
          e.offset e.total_size)
        = ss.map mkRecord := by
      have hfile : pre ++ (mkRecord s ++ (ss.map mkRecord).flatten)
          = (pre ++ mkRecord s) ++ (ss.map mkRecord).flatten := by
        rw [List.append_assoc]
      have hlen : (pre ++ mkRecord s).length = pre.length + recLen s := by
        rw [List.length_append, mkRecord_length]
      have := ih (pre ++ mkRecord s)
      rw [hlen] at this
      rw [hfile]
      exact this
    rw [hhead, htail]

/-! Bridging lemmas between patch, its phases, and the record view. -/

theorem build_index_eq_loop {file : List Nat} {es : List IndexEntry}
    (h : build_index file = some es) : es = buildIndexLoop file (file.length + 1) 13 := by
  unfold build_index at h
  by_cases hsig : readAt file 0 13 = SIG
  · rw [if_pos hsig] at h
    exact (Option.some_injective _ h).symm
  · rw [if_neg hsig] at h
    cases h

theorem slices_spec_list {file : List Nat} :
    ∀ l : List IndexEntry,
      (∀ e ∈ l, ∃ s : RecSpec, readAt file e.offset e.total_size = mkRecord s ∧
        s.name = e.name ∧ recLen s = e.total_size ∧ s.name.length < 2 ^ 16 ∧
        s.body.length < 2 ^ 64) →
      ∃ specs : List RecSpec,
        l.map (fun e => readAt file e.offset e.total_size) = specs.map mkRecord ∧
        specs.map (fun s => s.name) = l.map (fun e => e.name) ∧
        specs.map recLen = l.map (fun e => e.total_size) ∧
        ∀ s ∈ specs, s.name.length < 2 ^ 16 ∧ s.body.length < 2 ^ 64 := by
  intro l
  induction l with
  | nil =>
    intro _
    exact ⟨[], by simp, by simp, by simp, by simp⟩
  | cons e rest ih =>
    intro h
    obtain ⟨s, hs1, hs2, hs3, hs4, hs5⟩ := h e (by simp)
    obtain ⟨specs, h1, h2, h3, h4⟩ := ih (fun x hx => h x (by simp [hx]))
    refine ⟨s :: specs, ?_, ?_, ?_, ?_⟩
    · simp [hs1, h1]
    · simp [hs2, h2]
    · simp [hs3, h3]
    · intro x hx
      rcases List.mem_cons.mp hx with h | h
      · subst h
        exact ⟨hs4, hs5⟩
      · exact h4 x h

theorem retained_specs {file : List Nat} {es : List IndexEntry} (hb : Bytes file)
    (hidx : build_index file = some es) (hfit : 13 + sumSizes es ≤ file.length)
    (isAff : List Nat → Bool) :
    ∃ specs : List RecSpec,
      (retainedOf isAff es).map (fun e => readAt file e.offset e.total_size)
        = specs.map mkRecord ∧
      specs.map (fun s => s.name) = (retainedOf isAff es).map (fun e => e.name) ∧
      specs.map recLen = (retainedOf isAff es).map (fun e => e.total_size) ∧
      ∀ s ∈ specs, s.name.length < 2 ^ 16 ∧ s.body.length < 2 ^ 64 := by
  apply slices_spec_list
  intro e he
  have hmem : e ∈ es := List.mem_of_mem_filter he
  have hloop := build_index_eq_loop hidx
  have hch := build_index_chained hidx
  have hfite := (chained_fit es 13 hch hfit e hmem).2
  exact buildIndex_slice_spec hb (hloop ▸ hmem) hfite

theorem encode_body_lt (C : List Nat → List Nat) (name raw : List Nat)
    (h : raw.length < 2 ^ 64) : (encode C name raw).2.length < 2 ^ 64 := by
  simp only [encode]
  by_cases hm : isMp4 name
  · rw [if_pos hm]
    exact h
  · rw [if_neg hm]
    by_cases hc : (C raw).length < raw.length
    · rw [if_pos hc]
      exact Nat.lt_trans hc h
    · rw [if_neg hc]
      exact h

/-- Parsed record that write_new_entry serializes for one local file. -/
def specOfPair (C : List Nat → List Nat) (p : List Nat × List Nat) : RecSpec :=
  ⟨p.1, (encode C p.1 p.2).2, p.2.length, (encode C p.1 p.2).1, crc32 p.2⟩

theorem write_new_entry_record_eq (C : List Nat → List Nat) (p : List Nat × List Nat) :
    write_new_entry_record C p.1 p.2 = mkRecord (specOfPair C p) := rfl

theorem sortPairs_perm (l : List (List Nat × List Nat)) : (sortPairs l).Perm l :=
  List.perm_insertionSort nameLe l

theorem sortPairs_sorted (l : List (List Nat × List Nat)) :
    List.Sorted nameLe (sortPairs l) :=
  List.sorted_insertionSort nameLe l

theorem patch_of_none {C : List Nat → List Nat} {inp : PatchInput} {file : List Nat}
    (h : build_index file = none) : patch C inp file = file := by
  simp only [patch, h]

theorem patch_of_no_active {C : List Nat → List Nat} {inp : PatchInput} {file : List Nat}
    (h : activePrefixes inp = []) : patch C inp file = file := by
  cases hidx : build_index file with
  | none => exact patch_of_none hidx
  | some es =>
    simp only [patch, hidx]
    rw [if_pos (by rw [h]; rfl)]

theorem patch_of_no_diff {C : List Nat → List Nat} {inp : PatchInput} {file : List Nat}
    {es : List IndexEntry} (hidx : build_index file = some es)
    (hm : modifiedOf (activePrefixes inp) es (inp.localFiles.map (fun p => p.1)) = [])
    (hd : deletedOf (activePrefixes inp) es (inp.localFiles.map (fun p => p.1)) = [])
    (ha : addedOf (activePrefixes inp) es (inp.localFiles.map (fun p => p.1)) = []) :
    patch C inp file = file := by
  simp only [patch, hidx]
  by_cases hpref : (activePrefixes inp).isEmpty
  · rw [if_pos hpref]
  · rw [if_neg hpref, if_pos (by rw [hm, hd, ha]; rfl)]

theorem patch_eq_phases {C : List Nat → List Nat} {inp : PatchInput} {file : List Nat}
    {es : List IndexEntry} (hidx : build_index file = some es)
    (hpref : activePrefixes inp ≠ [])
    (hdiff : ¬(modifiedOf (activePrefixes inp) es (inp.localFiles.map (fun p => p.1)) = []
      ∧ deletedOf (activePrefixes inp) es (inp.localFiles.map (fun p => p.1)) = []
      ∧ addedOf (activePrefixes inp) es (inp.localFiles.map (fun p => p.1)) = [])) :
    patch C inp file
      = repackPhases C (isAffected (activePrefixes inp)) es inp.localFiles file := by
  simp only [patch, hidx]
  rw [if_neg (by simpa [List.isEmpty_iff] using hpref)]
  rw [if_neg (by
    intro hc
    apply hdiff
    simp only [Bool.and_eq_true, List.isEmpty_iff] at hc
    exact ⟨hc.1.1, hc.1.2, hc.2⟩)]

theorem patch_characterization {C : List Nat → List Nat} {inp : PatchInput} {file : List Nat}
    {es : List IndexEntry} (hidx : build_index file = some es)
    (hfit : 13 + sumSizes es ≤ file.length)
    (hpref : activePrefixes inp ≠ [])
    (hdiff : ¬(modifiedOf (activePrefixes inp) es (inp.localFiles.map (fun p => p.1)) = []
      ∧ deletedOf (activePrefixes inp) es (inp.localFiles.map (fun p => p.1)) = []
      ∧ addedOf (activePrefixes inp) es (inp.localFiles.map (fun p => p.1)) = [])) :
    patch C inp file
      = SIG ++ ((retainedOf (isAffected (activePrefixes inp)) es).map
            (fun e => readAt file e.offset e.total_size)).flatten
        ++ ((sortPairs inp.localFiles).map
            (fun p => write_new_entry_record C p.1 p.2)).flatten := by
  rw [patch_eq_phases hidx hpref hdiff]
  rw [(repackPhases_spec C (isAffected (activePrefixes inp)) es inp.localFiles file
    (build_index_chained hidx) hfit).1]
  rw [build_index_sig hidx]

theorem specIndex_length (pos : Nat) (specs : List RecSpec) :
    (specIndex pos specs).length = specs.length := by
  induction specs generalizing pos with
  | nil => rfl
  | cons s ss ih => simp [specIndex, ih]

theorem retainedOf_append (isAff : List Nat → Bool) (a b : List IndexEntry) :
    retainedOf isAff (a ++ b) = retainedOf isAff a ++ retainedOf isAff b := by
  simp [retainedOf, List.filter_append]

theorem foldl_append_flatten {α : Type} (f : α → List Nat) :
    ∀ (l : List α) (init : List Nat),
      l.foldl (fun acc p => acc ++ f p) init = init ++ (l.map f).flatten := by
  intro l
  induction l with
  | nil =>
    intro init
    simp
  | cons x xs ih =>
    intro init
    simp only [List.foldl_cons, List.map_cons, List.flatten_cons, ih, List.append_assoc]

theorem isAffected_false_of_missing_dir (inp : PatchInput) (F rest : List Nat)
    (hF : F ∈ inp.folders) (hdir : inp.isdir F = false)
    (hnb : ∀ G ∈ inp.folders, ¬ (92 ∈ G)) :
    isAffected (activePrefixes inp) (F ++ 92 :: rest) = false := by
  unfold isAffected
  rw [List.any_eq_false]
  intro p hp
  unfold activePrefixes at hp
  rw [List.mem_map] at hp
  obtain ⟨G, hGmem, rfl⟩ := hp
  rw [List.mem_filter] at hGmem
  obtain ⟨hGf, hGdir⟩ := hGmem
  intro hpre
  rw [ List.isPrefixOf_iff_prefix] at hpre
  obtain ⟨t, ht⟩ := hpre
  rcases Nat.lt_trichotomy G.length F.length with hlen | hlen | hlen
  · have h2 := congrArg (List.take (G.length + 1)) ht
    rw [List.take_left' (by simp)] at h2
    rw [List.take_append_of_le_length (show G.length + 1 ≤ F.length by omega)] at h2
    refine hnb F hF (List.mem_of_mem_take (n := G.length + 1) ?_)
    rw [← h2]
    simp
  · have h2 := congrArg (List.take G.length) ht
    rw [List.take_append_of_le_length (show G.length ≤ (G ++ [92]).length by simp),
      List.take_append_of_le_length (show G.length ≤ G.length from le_refl _),
      List.take_length] at h2
    rw [List.take_append_of_le_length (show G.length ≤ F.length by omega), hlen,
      List.take_length] at h2
    rw [h2] at hGdir
    rw [hGdir] at hdir
    cases hdir
  · have h2 := congrArg (List.take (F.length + 1)) ht
    rw [List.append_assoc] at h2
    rw [List.take_append_of_le_length (show F.length + 1 ≤ G.length by omega)] at h2
    have h3 : (F ++ 92 :: rest).take (F.length + 1) = F ++ [92] := by
      have h4 := @List.take_append _ F (92 :: rest) 1
      simpa using h4
    rw [h3] at h2
    refine hnb G hGf (List.mem_of_mem_take (n := F.length + 1) ?_)
    rw [h2]
    simp

/-! Claim theorems. -/

/-- C1: during the compaction pass, processed in original index order, the write
cursor is at most the current entry's offset at every step; and the chunked
low-to-high copy_block with destination at or below its source equals an atomic
copy of the original source bytes, so it never reads a position it has already
overwritten even when the ranges overlap. -/
theorem C1_compaction_pull_forward {file : List Nat} {es pre post : List IndexEntry}
    {e : IndexEntry} (isAff : List Nat → Bool)
    (hidx : build_index file = some es) (hsplit : es = pre ++ e :: post) :
    (compactLoop isAff pre file 13).2 ≤ e.offset ∧
    ∀ (g : List Nat) (src dst size : Nat), dst ≤ src → src + size ≤ g.length →
      copy_block g src dst size = writeAt g dst (readAt g src size) := by
  constructor
  · have hch := build_index_chained hidx
    rw [hsplit] at hch
    have hoff := chained_append_cons pre 13 e post hch
    rw [compactLoop_snd, hoff]
    have := sumSizes_retained_le isAff pre
    omega
  · intro g src dst size h1 h2
    exact copy_block_eq h1 h2

theorem C1_witness :
    (compactLoop (fun _ => false) [] (SIG ++ mkRecord ⟨[100, 92, 97], [9], 1, 1, 0⟩) 13).2
      ≤ (⟨[100, 92, 97], 13, 27⟩ : IndexEntry).offset ∧
    copy_block [1, 2, 3, 4, 5] 2 0 3 = writeAt [1, 2, 3, 4, 5] 0 (readAt [1, 2, 3, 4, 5] 2 3) := by
  have h := @C1_compaction_pull_forward (SIG ++ mkRecord ⟨[100, 92, 97], [9], 1, 1, 0⟩)
    [⟨[100, 92, 97], 13, 27⟩] [] [] ⟨[100, 92, 97], 13, 27⟩ (fun _ => false) (by decide) rfl
  exact ⟨h.1, h.2 [1, 2, 3, 4, 5] 2 0 3 (by decide) (by decide)⟩

/-- C2: after the compaction, append and truncate phases, the archive equals the
13-byte signature region followed by the retained records (byte-for-byte the
pre-compaction bytes, in original order) followed by the appended records, and
its length is 13 plus the sum of the retained total record lengths plus the sum
of the appended record lengths, with no trailing bytes of the old archive. -/
theorem C2_compaction_size_and_bytes {C : List Nat → List Nat} {file : List Nat}
    {es : List IndexEntry} (isAff : List Nat → Bool)
    (locals : List (List Nat × List Nat))
    (hidx : build_index file = some es) (hfit : 13 + sumSizes es ≤ file.length) :
    repackPhases C isAff es locals file
      = file.take 13
        ++ ((retainedOf isAff es).map (fun e => readAt file e.offset e.total_size)).flatten
        ++ ((sortPairs locals).map (fun p => write_new_entry_record C p.1 p.2)).flatten ∧
    (repackPhases C isAff es locals file).length
      = 13 + sumSizes (retainedOf isAff es)
        + (((sortPairs locals).map (fun p => write_new_entry_record C p.1 p.2)).map
            List.length).sum :=
  repackPhases_spec C isAff es locals file (build_index_chained hidx) hfit

theorem C2_witness :
    repackPhases (fun b => b) (fun n => n == [100, 92, 97])
        [⟨[100, 92, 97], 13, 27⟩, ⟨[101, 92, 98], 40, 28⟩] []
        (SIG ++ mkRecord ⟨[100, 92, 97], [9], 1, 1, 0⟩ ++ mkRecord ⟨[101, 92, 98], [4, 4], 2, 1, 0⟩)
      = (SIG ++ mkRecord ⟨[100, 92, 97], [9], 1, 1, 0⟩
          ++ mkRecord ⟨[101, 92, 98], [4, 4], 2, 1, 0⟩).take 13
        ++ ((retainedOf (fun n => n == [100, 92, 97])
              [⟨[100, 92, 97], 13, 27⟩, ⟨[101, 92, 98], 40, 28⟩]).map
            (fun e => readAt (SIG ++ mkRecord ⟨[100, 92, 97], [9], 1, 1, 0⟩
              ++ mkRecord ⟨[101, 92, 98], [4, 4], 2, 1, 0⟩) e.offset e.total_size)).flatten
        ++ ((sortPairs []).map
            (fun p => write_new_entry_record (fun b => b) p.1 p.2)).flatten ∧
    (repackPhases (fun b => b) (fun n => n == [100, 92, 97])
        [⟨[100, 92, 97], 13, 27⟩, ⟨[101, 92, 98], 40, 28⟩] []
        (SIG ++ mkRecord ⟨[100, 92, 97], [9], 1, 1, 0⟩
          ++ mkRecord ⟨[101, 92, 98], [4, 4], 2, 1, 0⟩)).length
      = 13 + sumSizes (retainedOf (fun n => n == [100, 92, 97])
            [⟨[100, 92, 97], 13, 27⟩, ⟨[101, 92, 98], 40, 28⟩])
        + (((sortPairs []).map
            (fun p => write_new_entry_record (fun b => b) p.1 p.2)).map List.length).sum :=
  C2_compaction_size_and_bytes (fun n => n == [100, 92, 97]) [] (by decide) (by decide)

/-- C4: decoding the flag and body produced by encode, with the decompressor told
the exact original length, returns the original bytes for each of the three
storage kinds, assuming the external LZ4 pair is a left inverse at that length. -/
theorem C4_codec_roundtrip (C : List Nat → List Nat) (D : List Nat → Nat → List Nat)
    (hrt : ∀ b : List Nat, D (C b) b.length = b) (name raw : List Nat) :
    decode D (encode C name raw).1 (encode C name raw).2 raw.length = raw := by
  simp only [encode, decode]
  by_cases hm : isMp4 name
  · rw [if_pos hm, if_neg (by simp)]
  · rw [if_neg hm]
    by_cases hc : (C raw).length < raw.length
    · rw [if_pos hc, if_pos rfl]
      exact hrt raw
    · rw [if_neg hc, if_neg (by simp)]

theorem C4_witness :
    decode (fun b _ => b) (encode (fun b => b) [97] [1, 2]).1
      (encode (fun b => b) [97] [1, 2]).2 2 = [1, 2] :=
  C4_codec_roundtrip (fun b => b) (fun b _ => b) (fun _ => rfl) [97] [1, 2]

/-- C6 counterexample: a header that declares a 5-byte name with only 2 bytes left
makes the scan stop cleanly with an empty index instead of raising a format
error, and a header whose declared body length overruns the end of the file is
still indexed without any error. -/
theorem C6_counterexample :
    build_index (SIG ++ [5, 0, 0, 0, 0, 0, 0, 0, 0, 0, 0, 0, 0, 0, 0, 0, 0, 0, 1, 0, 0, 0, 0]
        ++ [97, 98]) = some [] ∧
    build_index (SIG ++ [1, 0, 100, 0, 0, 0, 0, 0, 0, 0, 0, 0, 0, 0, 0, 0, 0, 0, 1, 0, 0, 0, 0]
        ++ [97]) = some [⟨[97], 13, 124⟩] := by
  constructor
  · decide
  · decide

/-- C6 amended: on a signature mismatch both scans abort immediately with a
format error, before reading any entry, and on a scan error the archive is
untouched (repack returns it unchanged); a structurally impossible header,
however, does not abort the scan: a name truncated by end of file ends the scan
cleanly with the entries read so far, and a declared body length exceeding the
remaining bytes is not detected, the entry being indexed anyway.  (The source
has one further scan-abort path this model does not cover: an invalid-UTF-8
name raises on decode, kpk_repack.py line 55 and kpk_tool.py line 38; names are
kept as raw bytes here, so only the signature direction is stated generally.) -/
theorem C6_signature_mismatch_aborts :
    (∀ file : List Nat, ¬ readAt file 0 13 = SIG → build_index file = none) ∧
    (∀ (D : List Nat → Nat → List Nat) (file : List Nat),
      ¬ readAt file 0 13 = SIG → extract D file = none) ∧
    (∀ (C : List Nat → List Nat) (inp : PatchInput) (file : List Nat),
      build_index file = none → patch C inp file = file) ∧
    build_index (SIG ++ [5, 0, 0, 0, 0, 0, 0, 0, 0, 0, 0, 0, 0, 0, 0, 0, 0, 0, 1, 0, 0, 0, 0]
        ++ [97, 98]) = some [] ∧
    build_index (SIG ++ [1, 0, 100, 0, 0, 0, 0, 0, 0, 0, 0, 0, 0, 0, 0, 0, 0, 0, 1, 0, 0, 0, 0]
        ++ [97]) = some [⟨[97], 13, 124⟩] := by
  refine ⟨?_, ?_, ?_, by decide, by decide⟩
  · intro file h
    unfold build_index
    rw [if_neg h]
  · intro D file h
    unfold extract
    rw [if_neg h]
  · intro C inp file h
    exact patch_of_none h

theorem C6_witness :
    build_index [1, 2, 3] = none ∧
    extract (fun b _ => b) [1, 2, 3] = none ∧
    patch (fun b => b) ⟨[], fun _ => false, []⟩ [1, 2, 3] = [1, 2, 3] :=
  ⟨C6_signature_mismatch_aborts.1 [1, 2, 3] (by decide),
   C6_signature_mismatch_aborts.2.1 (fun b _ => b) [1, 2, 3] (by decide),
   C6_signature_mismatch_aborts.2.2.1 (fun b => b) ⟨[], fun _ => false, []⟩ [1, 2, 3]
     (by decide)⟩

/-- C7: for a non-mp4 name, encode chooses the LZ4 kind (flag 0) with the
compressed body exactly when the compressed body is strictly shorter, and
otherwise stores the raw bytes with flag 1; consequently every entry encoded
with flag 0 has stored size at most its decompressed size. -/
theorem C7_compression_choice (C : List Nat → List Nat) (name raw : List Nat)
    (hm : isMp4 name = false) :
    ((C raw).length < raw.length → encode C name raw = (0, C raw)) ∧
    (¬ (C raw).length < raw.length → encode C name raw = (1, raw)) ∧
    (∀ (name2 raw2 : List Nat), (encode C name2 raw2).1 = 0 →
      (encode C name2 raw2).2.length ≤ raw2.length) := by
  refine ⟨?_, ?_, ?_⟩
  · intro h
    simp [encode, hm, h]
  · intro h
    simp [encode, hm, h]
  · intro n2 r2 h
    simp only [encode] at h ⊢
    by_cases hm2 : isMp4 n2
    · rw [if_pos hm2] at h
      exact absurd h (by simp)
    · rw [if_neg hm2] at h ⊢
      by_cases hc : (C r2).length < r2.length
      · rw [if_pos hc]
        exact Nat.le_of_lt hc
      · rw [if_neg hc] at h
        exact absurd h (by simp)

theorem C7_witness :
    ((fun b : List Nat => b.take 1) [7, 7, 7]).length < ([7, 7, 7] : List Nat).length ∧
    encode (fun b => b.take 1) [97] [7, 7, 7] = (0, (fun b : List Nat => b.take 1) [7, 7, 7]) ∧
    (encode (fun b => b.take 1) [97] [7, 7, 7]).2.length ≤ ([7, 7, 7] : List Nat).length := by
  have h := C7_compression_choice (fun b => b.take 1) [97] [7, 7, 7] (by decide)
  exact ⟨by decide, h.1 (by decide), h.2.2 [97] [7, 7, 7] (by decide)⟩

/-- C8: pack writes the signature followed by one record per enumerated file, the
records appearing in ascending lexicographic order of the archive-internal name;
the written sequence is a permutation of the input files. -/
theorem C8_pack_sorted_layout (C : List Nat → List Nat)
    (files : List (List Nat × List Nat)) :
    pack C files
      = SIG ++ ((sortPairs files).map (fun p => write_new_entry_record C p.1 p.2)).flatten ∧
    List.Sorted nameLe (sortPairs files) ∧ (sortPairs files).Perm files := by
  refine ⟨?_, sortPairs_sorted files, sortPairs_perm files⟩
  unfold pack
  exact foldl_append_flatten _ (sortPairs files) SIG

/-- C9: extraction LZ4-decompresses a body exactly when the flag byte is 0; any
other flag value, including undocumented ones such as 2, passes the stored body
through unchanged with no error, as shown on the first entry of any archive
position whose header is complete. -/
theorem C9_unknown_flag_is_raw (D : List Nat → Nat → List Nat) (file : List Nat)
    (fuel pos : Nat)
    (h23 : ¬ (readAt file pos 23).length < 23)
    (hfl : (readAt file pos 23).getD 18 0 ≠ 0) :
    (extractLoop D file (fuel + 1) pos).head? = some
      (readAt file (pos + 23) (leVal ((readAt file pos 23).take 2)),
       readAt file (pos + 23 + leVal ((readAt file pos 23).take 2))
         (leVal (((readAt file pos 23).drop 2).take 8))) ∧
    (∀ (body : List Nat) (ds fl : Nat), fl ≠ 0 → decode D fl body ds = body) ∧
    (∀ (body : List Nat) (ds : Nat), decode D 0 body ds = D body ds) := by
  refine ⟨?_, ?_, ?_⟩
  · simp only [extractLoop]
    rw [if_neg h23]
    rw [List.head?_cons]
    simp only [decode]
    rw [if_neg hfl]
  · intro body ds fl h
    simp [decode, h]
  · intro body ds
    simp [decode]

theorem C9_witness :
    (extractLoop (fun b _ => b) (SIG ++ mkRecord ⟨[97], [5, 6], 2, 2, 0⟩) 1 13).head? = some
      (readAt (SIG ++ mkRecord ⟨[97], [5, 6], 2, 2, 0⟩) 36
        (leVal ((readAt (SIG ++ mkRecord ⟨[97], [5, 6], 2, 2, 0⟩) 13 23).take 2)),
       readAt (SIG ++ mkRecord ⟨[97], [5, 6], 2, 2, 0⟩)
         (36 + leVal ((readAt (SIG ++ mkRecord ⟨[97], [5, 6], 2, 2, 0⟩) 13 23).take 2))
         (leVal (((readAt (SIG ++ mkRecord ⟨[97], [5, 6], 2, 2, 0⟩) 13 23).drop 2).take 8))) ∧
    decode (fun b _ => b) 2 [5, 6] 2 = [5, 6] := by
  have h := C9_unknown_flag_is_raw (fun b _ => b) (SIG ++ mkRecord ⟨[97], [5, 6], 2, 2, 0⟩)
    0 13 (by decide) (by decide)
  exact ⟨h.1, h.2.1 [5, 6] 2 2 (by decide)⟩

/-- C10: the managed prefixes come only from configured folders that exist as
local directories: if no configured folder exists the repack returns with the
archive unchanged, and an entry under the prefix of a configured folder with no
local directory is not affected (its entry is retained by the compaction
filter), provided folder names contain no backslash. -/
theorem C10_missing_folder_untouched (C : List Nat → List Nat) (inp : PatchInput)
    (file : List Nat) (F rest : List Nat) :
    (inp.folders.filter inp.isdir = [] → patch C inp file = file) ∧
    (F ∈ inp.folders → inp.isdir F = false → (∀ G ∈ inp.folders, ¬ (92 ∈ G)) →
      isAffected (activePrefixes inp) (F ++ 92 :: rest) = false) ∧
    (∀ es : List IndexEntry, build_index file = some es →
      ∀ e ∈ es, e.name = F ++ 92 :: rest →
      F ∈ inp.folders → inp.isdir F = false → (∀ G ∈ inp.folders, ¬ (92 ∈ G)) →
      e ∈ retainedOf (isAffected (activePrefixes inp)) es) := by
  refine ⟨?_, ?_, ?_⟩
  · intro h
    exact patch_of_no_active (by simp [activePrefixes, h])
  · intro hF hdir hnb
    exact isAffected_false_of_missing_dir inp F rest hF hdir hnb
  · intro es _ e he hname hF hdir hnb
    unfold retainedOf
    rw [List.mem_filter]
    refine ⟨he, ?_⟩
    rw [hname, isAffected_false_of_missing_dir inp F rest hF hdir hnb]
    rfl

theorem C10_witness :
    patch (fun b => b) ⟨[[100]], fun _ => false, []⟩ (SIG ++ mkRecord ⟨[100, 92, 97], [9], 1, 1, 0⟩)
      = SIG ++ mkRecord ⟨[100, 92, 97], [9], 1, 1, 0⟩ ∧
    isAffected (activePrefixes ⟨[[100]], fun _ => false, []⟩) ([100] ++ 92 :: [97]) = false ∧
    (⟨[100, 92, 97], 13, 27⟩ : IndexEntry)
      ∈ retainedOf (isAffected (activePrefixes ⟨[[100]], fun _ => false, []⟩))
        [⟨[100, 92, 97], 13, 27⟩] := by
  have h := C10_missing_folder_untouched (fun b => b) ⟨[[100]], fun _ => false, []⟩
    (SIG ++ mkRecord ⟨[100, 92, 97], [9], 1, 1, 0⟩) [100] [97]
  refine ⟨h.1 (by decide), h.2.1 (by decide) (by decide) (by decide), ?_⟩
  exact h.2.2 [⟨[100, 92, 97], 13, 27⟩] (by decide) ⟨[100, 92, 97], 13, 27⟩ (by decide)
    (by decide) (by decide) (by decide) (by decide)

/-- C3: after repack, the entry sequence of the archive is exactly the retained
entries in original relative order followed by the local (modified and added)
entries in ascending lexicographic order of name; the appended block is a
permutation of the local files, and the local names are exactly the disjoint
union of the modified and the added names. -/
theorem C3_repack_entry_order {C : List Nat → List Nat} {inp : PatchInput}
    {file : List Nat} {es : List IndexEntry}
    (hidx : build_index file = some es) (hfit : 13 + sumSizes es ≤ file.length)
    (hbytes : Bytes file)
    (hloc : ∀ p ∈ inp.localFiles, p.1.length < 2 ^ 16 ∧ p.2.length < 2 ^ 64)
    (hpref : activePrefixes inp ≠ [])
    (hdiff : ¬(modifiedOf (activePrefixes inp) es (inp.localFiles.map (fun p => p.1)) = []
      ∧ deletedOf (activePrefixes inp) es (inp.localFiles.map (fun p => p.1)) = []
      ∧ addedOf (activePrefixes inp) es (inp.localFiles.map (fun p => p.1)) = [])) :
    ∃ idx : List IndexEntry,
      build_index (patch C inp file) = some idx ∧
      idx.map (fun e => e.name)
        = (retainedOf (isAffected (activePrefixes inp)) es).map (fun e => e.name)
          ++ (sortPairs inp.localFiles).map (fun p => p.1) ∧
      List.Sorted nameLe (sortPairs inp.localFiles) ∧
      (sortPairs inp.localFiles).Perm inp.localFiles ∧
      (∀ n : List Nat, n ∈ inp.localFiles.map (fun p => p.1) ↔
        (n ∈ modifiedOf (activePrefixes inp) es (inp.localFiles.map (fun p => p.1))
         ∨ n ∈ addedOf (activePrefixes inp) es (inp.localFiles.map (fun p => p.1)))) := by
  obtain ⟨retSpecs, hr1, hr2, hr3, hr4⟩ := retained_specs hbytes hidx hfit
    (isAffected (activePrefixes inp))
  have hnewrec : (sortPairs inp.localFiles).map (fun p => write_new_entry_record C p.1 p.2)
      = ((sortPairs inp.localFiles).map (specOfPair C)).map mkRecord := by
    rw [List.map_map]
    rfl
  have hfile1 : patch C inp file
      = SIG ++ ((retSpecs ++ (sortPairs inp.localFiles).map (specOfPair C)).map
          mkRecord).flatten := by
    rw [patch_characterization hidx hfit hpref hdiff, hr1, hnewrec, List.map_append,
      List.flatten_append, List.append_assoc]
  have hbounds : ∀ s ∈ retSpecs ++ (sortPairs inp.localFiles).map (specOfPair C),
      s.name.length < 2 ^ 16 ∧ s.body.length < 2 ^ 64 := by
    intro s hs
    rcases List.mem_append.mp hs with h | h
    · exact hr4 s h
    · rw [List.mem_map] at h
      obtain ⟨p, hp, rfl⟩ := h
      have hp2 : p ∈ inp.localFiles := (sortPairs_perm inp.localFiles).mem_iff.mp hp
      obtain ⟨hn, hb⟩ := hloc p hp2
      exact ⟨hn, encode_body_lt C p.1 p.2 hb⟩
  refine ⟨specIndex 13 (retSpecs ++ (sortPairs inp.localFiles).map (specOfPair C)), ?_, ?_,
    sortPairs_sorted _, sortPairs_perm _, ?_⟩
  · rw [hfile1]
    exact build_index_records _ hbounds
  · rw [specIndex_names, List.map_append, hr2, List.map_map]
    rfl
  · intro n
    constructor
    · intro hn
      by_cases hc : (oldNamesOf (activePrefixes inp) es).contains n = true
      · left
        unfold modifiedOf
        rw [List.mem_filter]
        exact ⟨hn, hc⟩
      · right
        unfold addedOf
        rw [List.mem_filter]
        have hc2 : (oldNamesOf (activePrefixes inp) es).contains n = false :=
          Bool.eq_false_iff.mpr hc
        refine ⟨hn, ?_⟩
        rw [hc2]
        rfl
    · intro h
      rcases h with h | h
      · exact List.mem_of_mem_filter h
      · exact List.mem_of_mem_filter h

theorem C3_witness :
    ∃ idx : List IndexEntry,
      build_index (patch (fun b => b) ⟨[[100]], fun f => f == [100], [([100, 92, 97], [7, 8])]⟩
          (SIG ++ mkRecord ⟨[100, 92, 97], [9], 1, 1, 0⟩
            ++ mkRecord ⟨[101, 92, 98], [4, 4], 2, 1, 0⟩)) = some idx ∧
      idx.map (fun e => e.name)
        = (retainedOf (isAffected (activePrefixes
              ⟨[[100]], fun f => f == [100], [([100, 92, 97], [7, 8])]⟩))
            [⟨[100, 92, 97], 13, 27⟩, ⟨[101, 92, 98], 40, 28⟩]).map (fun e => e.name)
          ++ (sortPairs [([100, 92, 97], [7, 8])]).map (fun p => p.1) ∧
      List.Sorted nameLe (sortPairs [([100, 92, 97], [7, 8])]) ∧
      (sortPairs [([100, 92, 97], [7, 8])]).Perm [([100, 92, 97], [7, 8])] ∧
      (∀ n : List Nat, n ∈ ([([100, 92, 97], [7, 8])] :
            List (List Nat × List Nat)).map (fun p => p.1) ↔
        (n ∈ modifiedOf (activePrefixes ⟨[[100]], fun f => f == [100],
              [([100, 92, 97], [7, 8])]⟩)
            [⟨[100, 92, 97], 13, 27⟩, ⟨[101, 92, 98], 40, 28⟩]
            (([([100, 92, 97], [7, 8])] : List (List Nat × List Nat)).map (fun p => p.1))
         ∨ n ∈ addedOf (activePrefixes ⟨[[100]], fun f => f == [100],
              [([100, 92, 97], [7, 8])]⟩)
            [⟨[100, 92, 97], 13, 27⟩, ⟨[101, 92, 98], 40, 28⟩]
            (([([100, 92, 97], [7, 8])] : List (List Nat × List Nat)).map (fun p => p.1)))) :=
  @C3_repack_entry_order (fun b => b)
    ⟨[[100]], fun f => f == [100], [([100, 92, 97], [7, 8])]⟩
    (SIG ++ mkRecord ⟨[100, 92, 97], [9], 1, 1, 0⟩
      ++ mkRecord ⟨[101, 92, 98], [4, 4], 2, 1, 0⟩)
    [⟨[100, 92, 97], 13, 27⟩, ⟨[101, 92, 98], 40, 28⟩]
    (by decide) (by decide) (by unfold Bytes; decide) (by decide) (by decide) (by decide)

/-! Second-run analysis for the idempotence of repack. -/

theorem patch_second_run (C : List Nat → List Nat) (inp : PatchInput)
    (retSpecs : List RecSpec)
    (hpref : activePrefixes inp ≠ [])
    (hbR : ∀ s ∈ retSpecs, s.name.length < 2 ^ 16 ∧ s.body.length < 2 ^ 64)
    (haffR : ∀ s ∈ retSpecs, isAffected (activePrefixes inp) s.name = false)
    (haffL : ∀ p ∈ inp.localFiles, isAffected (activePrefixes inp) p.1 = true)
    (hloc : ∀ p ∈ inp.localFiles, p.1.length < 2 ^ 16 ∧ p.2.length < 2 ^ 64) :
    patch C inp (SIG ++ ((retSpecs
        ++ (sortPairs inp.localFiles).map (specOfPair C)).map mkRecord).flatten)
      = SIG ++ ((retSpecs ++ (sortPairs inp.localFiles).map (specOfPair C)).map
          mkRecord).flatten := by
  have hbN : ∀ s ∈ (sortPairs inp.localFiles).map (specOfPair C),
      s.name.length < 2 ^ 16 ∧ s.body.length < 2 ^ 64 := by
    intro s hs
    rw [List.mem_map] at hs
    obtain ⟨p, hp, rfl⟩ := hs
    have hp2 : p ∈ inp.localFiles := (sortPairs_perm inp.localFiles).mem_iff.mp hp
    obtain ⟨hn, hb⟩ := hloc p hp2
    exact ⟨hn, encode_body_lt C p.1 p.2 hb⟩
  have hball : ∀ s ∈ retSpecs ++ (sortPairs inp.localFiles).map (specOfPair C),
      s.name.length < 2 ^ 16 ∧ s.body.length < 2 ^ 64 := by
    intro s hs
    rcases List.mem_append.mp hs with h | h
    · exact hbR s h
    · exact hbN s h
  have hidx1 : build_index (SIG ++ ((retSpecs
        ++ (sortPairs inp.localFiles).map (specOfPair C)).map mkRecord).flatten)
      = some (specIndex 13 (retSpecs ++ (sortPairs inp.localFiles).map (specOfPair C))) :=
    build_index_records _ hball
  have hretNames : (specIndex 13 retSpecs).map (fun e => e.name)
      = retSpecs.map (fun s => s.name) := specIndex_names _ _
  have hnewNames : (specIndex (13 + (retSpecs.map recLen).sum)
        ((sortPairs inp.localFiles).map (specOfPair C))).map (fun e => e.name)
      = (sortPairs inp.localFiles).map (fun p => p.1) := by
    rw [specIndex_names, List.map_map]
    rfl
  have hretIdx_unaff : ∀ x ∈ specIndex 13 retSpecs,
      isAffected (activePrefixes inp) x.name = false := by
    intro x hx
    have hxn := List.mem_map_of_mem (fun e : IndexEntry => e.name) hx
    rw [hretNames, List.mem_map] at hxn
    obtain ⟨s, hsmem, heq⟩ := hxn
    have heq2 : s.name = x.name := heq
    rw [← heq2]
    exact haffR s hsmem
  have hnewIdx_aff : ∀ x ∈ specIndex (13 + (retSpecs.map recLen).sum)
      ((sortPairs inp.localFiles).map (specOfPair C)),
      isAffected (activePrefixes inp) x.name = true := by
    intro x hx
    have hxn := List.mem_map_of_mem (fun e : IndexEntry => e.name) hx
    rw [hnewNames, List.mem_map] at hxn
    obtain ⟨p, hp, heq⟩ := hxn
    have heq2 : p.1 = x.name := heq
    rw [← heq2]
    exact haffL p ((sortPairs_perm inp.localFiles).mem_iff.mp hp)
  have hsplit : specIndex 13 (retSpecs ++ (sortPairs inp.localFiles).map (specOfPair C))
      = specIndex 13 retSpecs ++ specIndex (13 + (retSpecs.map recLen).sum)
          ((sortPairs inp.localFiles).map (specOfPair C)) :=
    specIndex_append 13 _ _
  have hold2 : oldNamesOf (activePrefixes inp)
      (specIndex 13 (retSpecs ++ (sortPairs inp.localFiles).map (specOfPair C)))
      = (sortPairs inp.localFiles).map (fun p => p.1) := by
    unfold oldNamesOf
    rw [hsplit, List.filter_append]
    rw [List.filter_eq_nil_iff.mpr (by
      intro e he
      rw [hretIdx_unaff e he]
      simp)]
    rw [List.filter_eq_self.mpr (fun e he => hnewIdx_aff e he)]
    rw [List.nil_append]
    exact hnewNames
  by_cases hone : inp.localFiles = []
  · have hm2 : modifiedOf (activePrefixes inp)
        (specIndex 13 (retSpecs ++ (sortPairs inp.localFiles).map (specOfPair C)))
        (inp.localFiles.map (fun p => p.1)) = [] := by
      rw [hone]
      rfl
    have ha2 : addedOf (activePrefixes inp)
        (specIndex 13 (retSpecs ++ (sortPairs inp.localFiles).map (specOfPair C)))
        (inp.localFiles.map (fun p => p.1)) = [] := by
      rw [hone]
      rfl
    have hd2 : deletedOf (activePrefixes inp)
        (specIndex 13 (retSpecs ++ (sortPairs inp.localFiles).map (specOfPair C)))
        (inp.localFiles.map (fun p => p.1)) = [] := by
      unfold deletedOf
      rw [hold2, hone]
      rfl
    exact patch_of_no_diff hidx1 hm2 hd2 ha2
  · have hcontains : ∀ n ∈ inp.localFiles.map (fun p => p.1),
        (oldNamesOf (activePrefixes inp)
          (specIndex 13 (retSpecs ++ (sortPairs inp.localFiles).map
            (specOfPair C)))).contains n = true := by
      intro n hn
      rw [hold2]
      exact List.elem_iff.mpr (((sortPairs_perm inp.localFiles).map
        (fun p => p.1)).mem_iff.mpr hn)
    have hm2 : modifiedOf (activePrefixes inp)
        (specIndex 13 (retSpecs ++ (sortPairs inp.localFiles).map (specOfPair C)))
        (inp.localFiles.map (fun p => p.1)) = inp.localFiles.map (fun p => p.1) :=
      List.filter_eq_self.mpr hcontains
    have hdiff2 : ¬(modifiedOf (activePrefixes inp)
        (specIndex 13 (retSpecs ++ (sortPairs inp.localFiles).map (specOfPair C)))
        (inp.localFiles.map (fun p => p.1)) = []
      ∧ deletedOf (activePrefixes inp)
        (specIndex 13 (retSpecs ++ (sortPairs inp.localFiles).map (specOfPair C)))
        (inp.localFiles.map (fun p => p.1)) = []
      ∧ addedOf (activePrefixes inp)
        (specIndex 13 (retSpecs ++ (sortPairs inp.localFiles).map (specOfPair C)))
        (inp.localFiles.map (fun p => p.1)) = []) := by
      intro hcon
      apply hone
      have h1 := hcon.1
      rw [hm2] at h1
      exact List.map_eq_nil_iff.mp h1
    have hlen1 : ((SIG ++ ((retSpecs ++ (sortPairs inp.localFiles).map
          (specOfPair C)).map mkRecord).flatten)).length
        = 13 + sumSizes (specIndex 13 (retSpecs
            ++ (sortPairs inp.localFiles).map (specOfPair C))) := by
      rw [List.length_append, flatten_records_length, sumSizes_specIndex]
      rfl
    have hchar2 := patch_characterization (C := C) hidx1 (le_of_eq hlen1.symm) hpref hdiff2
    have hret2 : retainedOf (isAffected (activePrefixes inp))
        (specIndex 13 (retSpecs ++ (sortPairs inp.localFiles).map (specOfPair C)))
        = specIndex 13 retSpecs := by
      rw [hsplit, retainedOf_append]
      unfold retainedOf
      rw [List.filter_eq_self.mpr (by
        intro e he
        rw [hretIdx_unaff e he]
        rfl)]
      rw [List.filter_eq_nil_iff.mpr (by
        intro e he
        rw [hnewIdx_aff e he]
        simp)]
      simp
    have hslices : (specIndex 13 retSpecs).map
        (fun e => readAt (SIG ++ ((retSpecs ++ (sortPairs inp.localFiles).map
          (specOfPair C)).map mkRecord).flatten) e.offset e.total_size)
        = retSpecs.map mkRecord := by
      have hall := slices_specIndex (retSpecs
        ++ (sortPairs inp.localFiles).map (specOfPair C)) SIG
      rw [show SIG.length = 13 from rfl, hsplit, List.map_append] at hall
      conv at hall =>
        rhs
        rw [List.map_append]
      have hleneq : ((specIndex 13 retSpecs).map
          (fun e => readAt (SIG ++ ((retSpecs ++ (sortPairs inp.localFiles).map
            (specOfPair C)).map mkRecord).flatten) e.offset e.total_size)).length
          = (retSpecs.map mkRecord).length := by
        rw [List.length_map, List.length_map, specIndex_length]
      exact (List.append_inj hall hleneq).1
    rw [hchar2, hret2, hslices]
    rw [show (sortPairs inp.localFiles).map (fun p => write_new_entry_record C p.1 p.2)
        = ((sortPairs inp.localFiles).map (specOfPair C)).map mkRecord from by
      rw [List.map_map]
      rfl]
    rw [List.map_append, List.flatten_append, List.append_assoc]

/-- C5 counterexample: with one managed folder and one local file, after a first
repack the second run's computed diff is not empty: the local file is classified
as modified again (its name is both in the archive and on disk), so the second
run is not the claimed no-op with an empty diff. -/
theorem C5_counterexample :
    build_index (patch (fun b => b) ⟨[[100]], fun f => f == [100], [([100, 92, 97], [7, 8])]⟩
        (SIG ++ mkRecord ⟨[100, 92, 97], [9], 1, 1, 0⟩))
      = some [⟨[100, 92, 97], 13, 28⟩] ∧
    modifiedOf (activePrefixes ⟨[[100]], fun f => f == [100], [([100, 92, 97], [7, 8])]⟩)
        [⟨[100, 92, 97], 13, 28⟩] [[100, 92, 97]] ≠ [] := by
  constructor
  · decide
  · decide

/-- C5 amended: running repack twice with an unchanged patch directory yields a
byte-identical archive the second time, but not because the diff is empty: when
local files exist they are all classified as modified on the second run, which
re-compacts and re-appends them to exactly the same bytes; the diff is empty
only when the managed prefixes contain no local files. -/
theorem C5_second_repack_identical {C : List Nat → List Nat} {inp : PatchInput}
    {file : List Nat} {es : List IndexEntry}
    (hidx : build_index file = some es) (hfit : 13 + sumSizes es ≤ file.length)
    (hbytes : Bytes file)
    (hloc : ∀ p ∈ inp.localFiles, p.1.length < 2 ^ 16 ∧ p.2.length < 2 ^ 64)
    (hfrom : ∀ p ∈ inp.localFiles, ∃ F ∈ inp.folders, inp.isdir F = true ∧
      (F ++ [92]).isPrefixOf p.1 = true) :
    patch C inp (patch C inp file) = patch C inp file := by
  by_cases hpref : activePrefixes inp = []
  · rw [patch_of_no_active hpref, patch_of_no_active hpref]
  · by_cases hdiff : modifiedOf (activePrefixes inp) es (inp.localFiles.map (fun p => p.1)) = []
      ∧ deletedOf (activePrefixes inp) es (inp.localFiles.map (fun p => p.1)) = []
      ∧ addedOf (activePrefixes inp) es (inp.localFiles.map (fun p => p.1)) = []
    · have h1 : patch C inp file = file := patch_of_no_diff hidx hdiff.1 hdiff.2.1 hdiff.2.2
      rw [h1]
      exact h1
    · obtain ⟨retSpecs, hr1, hr2, hr3, hr4⟩ := retained_specs hbytes hidx hfit
        (isAffected (activePrefixes inp))
      have haffL : ∀ p ∈ inp.localFiles, isAffected (activePrefixes inp) p.1 = true := by
        intro p hp
        obtain ⟨F, hF, hdir, hpre2⟩ := hfrom p hp
        unfold isAffected
        rw [List.any_eq_true]
        refine ⟨F ++ [92], ?_, hpre2⟩
        unfold activePrefixes
        rw [List.mem_map]
        exact ⟨F, List.mem_filter.mpr ⟨hF, hdir⟩, rfl⟩
      have haffR : ∀ s ∈ retSpecs, isAffected (activePrefixes inp) s.name = false := by
        intro s hs
        have hsn := List.mem_map_of_mem (fun s : RecSpec => s.name) hs
        rw [hr2, List.mem_map] at hsn
        obtain ⟨e, he, heq⟩ := hsn
        have heq2 : e.name = s.name := heq
        rw [← heq2]
        have := (List.mem_filter.mp he).2
        simpa using this
      have hfile1 : patch C inp file
          = SIG ++ ((retSpecs ++ (sortPairs inp.localFiles).map (specOfPair C)).map
              mkRecord).flatten := by
        rw [patch_characterization hidx hfit hpref hdiff, hr1]
        rw [show (sortPairs inp.localFiles).map (fun p => write_new_entry_record C p.1 p.2)
            = ((sortPairs inp.localFiles).map (specOfPair C)).map mkRecord from by
          rw [List.map_map]
          rfl]
        rw [List.map_append, List.flatten_append, List.append_assoc]
      rw [hfile1]
      exact patch_second_run C inp retSpecs hpref hr4 haffR haffL hloc

theorem C5_witness :
    patch (fun b => b) ⟨[[100]], fun f => f == [100], [([100, 92, 97], [7, 8])]⟩
        (patch (fun b => b) ⟨[[100]], fun f => f == [100], [([100, 92, 97], [7, 8])]⟩
          (SIG ++ mkRecord ⟨[100, 92, 97], [9], 1, 1, 0⟩))
      = patch (fun b => b) ⟨[[100]], fun f => f == [100], [([100, 92, 97], [7, 8])]⟩
          (SIG ++ mkRecord ⟨[100, 92, 97], [9], 1, 1, 0⟩) :=
  @C5_second_repack_identical (fun b => b)
    ⟨[[100]], fun f => f == [100], [([100, 92, 97], [7, 8])]⟩
    (SIG ++ mkRecord ⟨[100, 92, 97], [9], 1, 1, 0⟩)
    [⟨[100, 92, 97], 13, 27⟩]
    (by decide) (by decide) (by unfold Bytes; decide) (by decide) (by decide)

end KPK
